import Mathlib

/-!
Verification of the adaptive complex-threshold clustering assigner from the
BIONIC-analyses repository (Fig. 6 d notebook): the function
`get_first_level_clusters` and the nested-grouping serializer
`create_data_structure`.

The linkage structure and scipy's `fcluster` are external inputs to the code
under verification: the notebook reads `link` from an enclosing scope and only
uses it through `np.max(maxdists(link))` (the maximum merge distance) and
`fcluster(link, t, criterion="distance")` (the flat clustering at threshold
`t`).  They are therefore embedded as the abstract fields `maxThresh` and
`cut` of `MatcherInput`.  Gene identifiers are embedded as naturals, floats
as rationals.
-/

namespace Bionic

/-- Inputs of `get_first_level_clusters`:
`commonGenes` embeds the module-level `common_genes` array (ordered item set),
`maxThresh` embeds `np.max(maxdists(link))`,
`cut t` embeds `fcluster(link, t, criterion="distance")` (one label per item),
`complexes` embeds the `complexes` dict (ordered key/value pairs, as Python
dicts preserve insertion order). -/
structure MatcherInput where
  commonGenes : List Nat
  maxThresh : ℚ
  cut : ℚ → List Nat
  complexes : List (Nat × List Nat)

/-- `np.linspace(0, maxThresh, num=1000)`: the 1000 evenly spaced scan
thresholds `maxThresh * i / 999` for `i = 0, …, 999`. -/
def linspace (maxThresh : ℚ) : List ℚ :=
  (List.range 1000).map (fun i : ℕ => maxThresh * (i : ℚ) / 999)

/-- Insert a value into an ascending duplicate-free list, keeping it ascending
and duplicate-free. -/
def insertSorted (x : Nat) : List Nat → List Nat
  | [] => [x]
  | y :: ys =>
    if x < y then x :: y :: ys else if x = y then y :: ys else y :: insertSorted x ys

/-- `np.unique(clusters)`: the distinct labels, in ascending order.
(The theorem `uniqueLabels_eq_sort` below shows this equals sorting the
underlying finite set, i.e. the `np.unique` contract.) -/
def uniqueLabels (clusters : List Nat) : List Nat :=
  clusters.foldr insertSorted []

/-- `np.argwhere(clusters == label).flatten()`: the (ascending) indices of the
items carrying `label`. -/
def clusterIdxs (clusters : List Nat) (label : Nat) : List Nat :=
  (List.range clusters.length).filter (fun i => clusters.getD i 0 == label)

/-- `common_genes[cluster]` as a set (`np.intersect1d`/`np.union1d` treat
their list arguments as sets). -/
def clusterGenesOf (inp : MatcherInput) (cluster : List Nat) : Finset Nat :=
  (cluster.map (fun i => inp.commonGenes.getD i 0)).toFinset

/-- The Jaccard score computed in the inner loop:
`numer = len(np.intersect1d(cluster_genes, comp_genes))`,
`denom = len(np.union1d(cluster_genes, comp_genes))`,
`0` if `denom == 0` else `numer / denom`. -/
def jaccardQ (a b : Finset Nat) : ℚ :=
  if (a ∪ b).card = 0 then 0 else ((a ∩ b).card : ℚ) / ((a ∪ b).card : ℚ)

/-- The state threaded through the scan: the module-level `highest_thresh`,
the `assignments` dict (as an ordered association list, which is exactly the
observable content of an insertion-ordered Python dict), and the per-complex
`best_jaccard`. -/
structure MatchState where
  highest : ℚ
  assignments : List (Nat × List Nat)
  best : ℚ
  deriving DecidableEq

/-- Python dict assignment `d[k] = v`: update in place if the key is present
(keeping its position), otherwise append at the end. -/
def updateAssoc (l : List (Nat × List Nat)) (k : Nat) (v : List Nat) :
    List (Nat × List Nat) :=
  if l.any (fun p => p.1 == k) then l.map (fun p => if p.1 == k then (k, v) else p)
  else l ++ [(k, v)]

/-- One iteration of the innermost loop body of `get_first_level_clusters`,
for the event `e = (thresh, label)`:
extract the cluster, skip it if it has fewer than 2 members, otherwise compute
the Jaccard score and, when it strictly improves `best_jaccard` and clears the
0.5 gate, update `highest_thresh` (if exceeded), `best_jaccard` and
`assignments[complex]`. -/
def stepEvent (inp : MatcherInput) (compGenes : Finset Nat) (cid : Nat)
    (st : MatchState) (e : ℚ × Nat) : MatchState :=
  let cluster := clusterIdxs (inp.cut e.1) e.2
  if cluster.length < 2 then st
  else
    let j := jaccardQ (clusterGenesOf inp cluster) compGenes
    if st.best < j ∧ (1 : ℚ)/2 ≤ j then
      { highest := if st.highest < e.1 then e.1 else st.highest
        assignments := updateAssoc st.assignments cid cluster
        best := j }
    else st

/-- The loop `for label in labels:` at one threshold `t`. -/
def scanThresh (inp : MatcherInput) (compGenes : Finset Nat) (cid : Nat)
    (st : MatchState) (t : ℚ) : MatchState :=
  (uniqueLabels (inp.cut t)).foldl (fun s label => stepEvent inp compGenes cid s (t, label)) st

/-- The loop `for thresh in np.linspace(0, max_thresh, num=1000):` for one
complex. -/
def scanComplex (inp : MatcherInput) (compGenes : Finset Nat) (cid : Nat)
    (st : MatchState) : MatchState :=
  (linspace inp.maxThresh).foldl (scanThresh inp compGenes cid) st

/-- `len(np.intersect1d(comp_genes, common_genes))`. -/
def presentCount (inp : MatcherInput) (genes : List Nat) : Nat :=
  (genes.toFinset ∩ inp.commonGenes.toFinset).card

/-- The body of `for complex, comp_genes in complexes.items():`: skip the
complex when fewer than 2 of its genes are present, otherwise run the
threshold scan with `best_jaccard = 0`. -/
def processComplex (inp : MatcherInput) (st : ℚ × List (Nat × List Nat))
    (c : Nat × List Nat) : ℚ × List (Nat × List Nat) :=
  if presentCount inp c.2 < 2 then st
  else
    let r := scanComplex inp c.2.toFinset c.1 ⟨st.1, st.2, 0⟩
    (r.highest, r.assignments)

/-- The whole complex-matching scan: `highest_thresh = 0`, `assignments = {}`,
then the loop over `complexes.items()`.  Returns the final
`(highest_thresh, assignments)`. -/
def runScan (inp : MatcherInput) : ℚ × List (Nat × List Nat) :=
  inp.complexes.foldl (processComplex inp) (0, [])

/-- `gene_assignments[idxs] = i + 1` for one assignment entry: a write landing
on every listed index that is inside the array. -/
def writeLabel (ga : List Nat) (idxs : List Nat) (v : Nat) : List Nat :=
  (List.range ga.length).map (fun j => if j ∈ idxs then v else ga.getD j 0)

/-- The loop `for i, (complex, idxs) in enumerate(assignments.items()):`
starting at enumeration index `i`. -/
def buildGAFrom (ga : List Nat) (i : Nat) (asg : List (Nat × List Nat)) : List Nat :=
  match asg with
  | [] => ga
  | p :: rest => buildGAFrom (writeLabel ga p.2 (i + 1)) (i + 1) rest

/-- `gene_assignments`: zeros of length `n`, then label `i+1` written at the
indices of the `i`-th captured complex (in capture order). -/
def buildGA (n : Nat) (asg : List (Nat × List Nat)) : List Nat :=
  buildGAFrom (List.replicate n 0) 0 asg

/-- `get_first_level_clusters`: run the scan, build `gene_assignments`, then
`final_clusters = np.max(gene_assignments) + 1 + fcluster(link, highest_thresh + 0.1)`
with the nonzero entries of `gene_assignments` overriding the fallback. -/
def get_first_level_clusters (inp : MatcherInput) : List Nat :=
  let r := runScan inp
  let n := inp.commonGenes.length
  let ga := buildGA n r.2
  let m := ga.foldr max 0
  let fb := inp.cut (r.1 + 1/10)
  (List.range n).map (fun j => if ga.getD j 0 ≠ 0 then ga.getD j 0 else m + 1 + fb.getD j 0)

/-! ### Derived views of the scan, used to state and prove the claims -/

/-- The flattened list of `(thresh, label)` events scanned for one complex, in
scan order (thresholds ascending-major, labels ascending-minor). -/
def events (inp : MatcherInput) : List (ℚ × Nat) :=
  (linspace inp.maxThresh).flatMap
    (fun t => (uniqueLabels (inp.cut t)).map (fun l => (t, l)))

/-- The Jaccard score of the event `e` against `compGenes`. -/
def scoreOf (inp : MatcherInput) (compGenes : Finset Nat) (e : ℚ × Nat) : ℚ :=
  jaccardQ (clusterGenesOf inp (clusterIdxs (inp.cut e.1) e.2)) compGenes

/-- Event `e` is capture-eligible for `compGenes`: its cluster has at least 2
members and its Jaccard score clears the 0.5 gate. -/
def eligB (inp : MatcherInput) (compGenes : Finset Nat) (e : ℚ × Nat) : Bool :=
  decide (2 ≤ (clusterIdxs (inp.cut e.1) e.2).length) &&
    decide ((1 : ℚ)/2 ≤ scoreOf inp compGenes e)

/-- The per-complex scan distilled to the data it alone determines: the running
`(best_jaccard, recorded match)` pair. -/
def bestStep (inp : MatcherInput) (compGenes : Finset Nat)
    (p : ℚ × Option (List Nat)) (e : ℚ × Nat) : ℚ × Option (List Nat) :=
  let cluster := clusterIdxs (inp.cut e.1) e.2
  if cluster.length < 2 then p
  else
    let j := jaccardQ (clusterGenesOf inp cluster) compGenes
    if p.1 < j ∧ (1 : ℚ)/2 ≤ j then (j, some cluster) else p

/-- The match recorded for a complex by its own scan (independent of every
other complex). -/
def bestMatch (inp : MatcherInput) (compGenes : Finset Nat) : Option (List Nat) :=
  ((events inp).foldl (bestStep inp compGenes) (0, none)).2

/-- The entry a single complex contributes to the final `assignments`. -/
def contribution (inp : MatcherInput) (c : Nat × List Nat) :
    Option (Nat × List Nat) :=
  if presentCount inp c.2 < 2 then none
  else (bestMatch inp c.2.toFinset).map (fun M => (c.1, M))

/-! ### The nested-grouping serializer (`create_data_structure`) -/

/-- A node of the D3.js dictionary: either `{"name": name, "value": 1}` (a
leaf) or `{"name": "", "children": [...]}` (an internal node). -/
inductive DataNode where
  | leaf (name : String) (value : Nat)
  | node (name : String) (children : List DataNode)

mutual

/-- `create_data_structure_recursive(clusters, subset, idx)`.  The pair
`(clusters, idx)` of the source is represented by the list `levels` of the
cluster levels not yet processed (`clusters[idx:]`): the source only ever
reads `clusters[idx]` and recurses at `idx + 1`, and the base case
`idx + 1 > len(clusters)` is `levels = []`.  The base case returns the list of
leaf dictionaries for `mapped_genes[subset]`; the recursive case groups by the
unique labels of `clusters[idx][subset]` and wraps the children in an internal
node. -/
def create_data_structure_recursive (mappedGenes : List String)
    (levels : List (List Nat)) (subset : List Nat) : List DataNode ⊕ DataNode :=
  match levels with
  | [] => Sum.inl (subset.map (fun i => DataNode.leaf (mappedGenes.getD i "") 1))
  | cluster :: rest =>
    Sum.inr (DataNode.node ""
      (childrenFor mappedGenes cluster rest
        (uniqueLabels (subset.map (fun i => cluster.getD i 0)))))

/-- The loop `for label in labels:` of `create_data_structure_recursive`: for
each label, `new_subset = np.argwhere(clusters[idx] == label).flatten()` (over
the FULL level array, not restricted to `subset`), and the recursive result is
spliced in when it is a list of leaves, appended otherwise. -/
def childrenFor (mappedGenes : List String) (cluster : List Nat)
    (rest : List (List Nat)) (labels : List Nat) : List DataNode :=
  match labels with
  | [] => []
  | label :: moreLabels =>
    (match create_data_structure_recursive mappedGenes rest
        (clusterIdxs cluster label) with
     | Sum.inl leaves => leaves
     | Sum.inr nd => [nd]) ++
    childrenFor mappedGenes cluster rest moreLabels

end

/-- `create_data_structure(clusters)`: reverse the level list and recurse from
`subset = np.arange(len(clusters[0]))` (the length of the first level of the
reversed list). -/
def create_data_structure (mappedGenes : List String)
    (clusters : List (List Nat)) : List DataNode ⊕ DataNode :=
  create_data_structure_recursive mappedGenes clusters.reverse
    (List.range (clusters.reverse.getD 0 []).length)

mutual

/-- Collect the `(name, value)` pairs of the leaves of a tree, left to right. -/
def leavesOf : DataNode → List (String × Nat)
  | DataNode.leaf name value => [(name, value)]
  | DataNode.node _ children => leavesList children

/-- Collect the leaves of a list of trees, left to right. -/
def leavesList : List DataNode → List (String × Nat)
  | [] => []
  | nd :: rest => leavesOf nd ++ leavesList rest

end

/-- Leaves of either possible result of the serializer. -/
def leavesS : List DataNode ⊕ DataNode → List (String × Nat)
  | Sum.inl l => leavesList l
  | Sum.inr nd => leavesOf nd

/-- Level `b` refines level `a`: items sharing a `b`-label also share their
`a`-label (both levels read at the common item count `n`). -/
def Refines (n : Nat) (a b : List Nat) : Prop :=
  ∀ i j, i < n → j < n → b.getD i 0 = b.getD j 0 → a.getD i 0 = a.getD j 0

/-! ### Concrete inputs used to exercise the theorems -/

/-- Two items forming one cluster at every threshold; one complex equal to the
whole item set. -/
def inpW2 : MatcherInput :=
  { commonGenes := [0, 1]
    maxThresh := 0
    cut := fun _ => [1, 1]
    complexes := [(7, [0, 1])] }

/-- Six items forming one cluster at every threshold; complex 10 covers five of
them (captured with Jaccard 5/6), complex 20 = genes 0 and 5 (Jaccard 2/6,
never captured). -/
def inpC3 : MatcherInput :=
  { commonGenes := [0, 1, 2, 3, 4, 5]
    maxThresh := 0
    cut := fun _ => [1, 1, 1, 1, 1, 1]
    complexes := [(10, [0, 1, 2, 3, 4]), (20, [0, 5])] }

/-- `inpC3` with the complexes iterated in the opposite order. -/
def inpC3r : MatcherInput :=
  { commonGenes := [0, 1, 2, 3, 4, 5]
    maxThresh := 0
    cut := fun _ => [1, 1, 1, 1, 1, 1]
    complexes := [(20, [0, 5]), (10, [0, 1, 2, 3, 4])] }

/-- Two items, no complexes at all. -/
def inpW10 : MatcherInput :=
  { commonGenes := [3, 4]
    maxThresh := 0
    cut := fun _ => [1, 2]
    complexes := [] }

/-- A degenerate input whose cut is always empty (to exercise the
zero-denominator branch). -/
def inpW8 : MatcherInput :=
  { commonGenes := []
    maxThresh := 0
    cut := fun _ => []
    complexes := [] }

end Bionic

namespace Bionic

/-! ### Generic list helpers -/

theorem foldl_flatMap_eq {α β γ : Type} (L : List α) (g : α → List β)
    (f : γ → β → γ) (s : γ) :
    (L.flatMap g).foldl f s = L.foldl (fun s a => (g a).foldl f s) s := by
  induction L generalizing s with
  | nil => rfl
  | cons a L ih => rw [List.flatMap_cons, List.foldl_append, List.foldl_cons, ih]

theorem foldl_replicate_fix {α β : Type} (f : β → α → β) (a : α) :
    ∀ (n : Nat) (b : β), f b a = b → List.foldl f b (List.replicate n a) = b := by
  intro n
  induction n with
  | zero => intro b _; rfl
  | succ k ih => intro b hb; rw [List.replicate_succ, List.foldl_cons, hb]; exact ih b hb

theorem getD_range_map {β : Type} [Inhabited β] (n : Nat) (g : Nat → β) (j : Nat)
    (hj : j < n) (d : β) : (((List.range n).map g).getD j d) = g j := by
  rw [List.getD_eq_getElem?_getD, List.getElem?_map, List.getElem?_range hj]
  rfl

theorem getD_replicate {β : Type} (n : Nat) (a d : β) (j : Nat) :
    ((List.replicate n a).getD j d) = if j < n then a else d := by
  rw [List.getD_eq_getElem?_getD, List.getElem?_replicate]
  by_cases h : j < n <;> simp [h]

theorem le_foldr_max (l : List Nat) (x : Nat) (hx : x ∈ l) : x ≤ l.foldr max 0 := by
  induction l with
  | nil => cases hx
  | cons a l ih =>
    rcases List.mem_cons.mp hx with h | h
    · subst h; exact le_max_left _ _
    · exact le_trans (ih h) (le_max_right _ _)

theorem getD_le_foldr_max (l : List Nat) (j : Nat) : l.getD j 0 ≤ l.foldr max 0 := by
  by_cases h : j < l.length
  · rw [List.getD_eq_getElem l 0 h]
    exact le_foldr_max l _ (l.getElem_mem h)
  · rw [List.getD_eq_default _ _ (le_of_not_lt h)]
    exact Nat.zero_le _

theorem nodup_keys_entry_unique {β : Type} :
    ∀ (l : List (Nat × β)) (k : Nat) (a b : β),
      (l.map Prod.fst).Nodup → (k, a) ∈ l → (k, b) ∈ l → a = b := by
  intro l
  induction l with
  | nil => intro k a b _ ha; cases ha
  | cons p l ih =>
    intro k a b hnd ha hb
    rw [List.map_cons, List.nodup_cons] at hnd
    rcases List.mem_cons.mp ha with h1 | h1 <;> rcases List.mem_cons.mp hb with h2 | h2
    · have h12 : (k, a) = (k, b) := h1.trans h2.symm
      exact ((Prod.mk.injEq _ _ _ _).mp h12).2
    · exfalso
      have hk : p.1 = k := by rw [← h1]
      exact hnd.1 (hk ▸ List.mem_map_of_mem Prod.fst h2)
    · exfalso
      have hk : p.1 = k := by rw [← h2]
      exact hnd.1 (hk ▸ List.mem_map_of_mem Prod.fst h1)
    · exact ih k a b hnd.2 h1 h2

/-! ### `uniqueLabels` is the sorted list of distinct labels -/

theorem mem_insertSorted (x a : Nat) :
    ∀ (l : List Nat), a ∈ insertSorted x l ↔ a = x ∨ a ∈ l := by
  intro l
  induction l with
  | nil => simp [insertSorted]
  | cons y ys ih =>
    unfold insertSorted
    by_cases h1 : x < y
    · rw [if_pos h1]
      exact List.mem_cons
    · by_cases h2 : x = y
      · subst h2
        rw [if_neg h1, if_pos rfl]
        simp [List.mem_cons]
      · rw [if_neg h1, if_neg h2, List.mem_cons, ih, List.mem_cons]
        tauto

theorem sorted_insertSorted (x : Nat) :
    ∀ (l : List Nat), l.Sorted (· < ·) → (insertSorted x l).Sorted (· < ·) := by
  intro l
  induction l with
  | nil => intro _; simp [insertSorted]
  | cons y ys ih =>
    intro hs
    rw [List.sorted_cons] at hs
    unfold insertSorted
    by_cases h1 : x < y
    · rw [if_pos h1, List.sorted_cons]
      refine ⟨?_, List.sorted_cons.mpr hs⟩
      intro b hb
      rcases List.mem_cons.mp hb with h | h
      · rw [h]; exact h1
      · exact lt_trans h1 (hs.1 b h)
    · by_cases h2 : x = y
      · rw [if_neg h1, if_pos h2]; exact List.sorted_cons.mpr hs
      · rw [if_neg h1, if_neg h2, List.sorted_cons]
        refine ⟨?_, ih hs.2⟩
        intro b hb
        rcases (mem_insertSorted x b ys).mp hb with h | h
        · rw [h]; omega
        · exact hs.1 b h

theorem mem_uniqueLabels (a : Nat) (l : List Nat) :
    a ∈ uniqueLabels l ↔ a ∈ l := by
  induction l with
  | nil => simp [uniqueLabels]
  | cons y ys ih =>
    unfold uniqueLabels at *
    rw [List.foldr_cons, mem_insertSorted, ih, List.mem_cons]

theorem sorted_uniqueLabels (l : List Nat) : (uniqueLabels l).Sorted (· < ·) := by
  induction l with
  | nil => simp [uniqueLabels]
  | cons y ys ih => exact sorted_insertSorted y _ ih

theorem nodup_uniqueLabels (l : List Nat) : (uniqueLabels l).Nodup :=
  (sorted_uniqueLabels l).nodup

/-- Faithfulness of `uniqueLabels` to `np.unique`: it is exactly the
ascending enumeration of the set of values. -/
theorem uniqueLabels_eq_sort (l : List Nat) :
    uniqueLabels l = l.toFinset.sort (· ≤ ·) := by
  apply List.eq_of_perm_of_sorted (r := (· ≤ ·))
  · apply List.perm_of_nodup_nodup_toFinset_eq (nodup_uniqueLabels l)
      (Finset.sort_nodup _ _)
    apply Finset.ext
    intro a
    simp [mem_uniqueLabels, Finset.mem_sort]
  · exact (sorted_uniqueLabels l).le_of_lt
  · exact Finset.sort_sorted _ _

end Bionic

namespace Bionic

/-! ### The threshold grid -/

theorem linspace_zero : linspace 0 = List.replicate 1000 0 := by
  unfold linspace
  have h : ∀ i ∈ List.range 1000, (0 : ℚ) * (i : ℚ) / 999 = (fun _ : ℕ => (0 : ℚ)) i := by
    intro i _
    simp
  rw [List.map_congr_left h, List.map_const', List.length_range]

theorem linspace_nonneg (M : ℚ) (hM : 0 ≤ M) (t : ℚ) (ht : t ∈ linspace M) : 0 ≤ t := by
  unfold linspace at ht
  rcases List.mem_map.mp ht with ⟨i, _, rfl⟩
  positivity

theorem linspace_le_max (M : ℚ) (hM : 0 ≤ M) (t : ℚ) (ht : t ∈ linspace M) : t ≤ M := by
  unfold linspace at ht
  rcases List.mem_map.mp ht with ⟨i, hi, rfl⟩
  have hi999 : (i : ℚ) ≤ 999 := by
    have : i ≤ 999 := by
      have := List.mem_range.mp hi
      omega
    exact_mod_cast this
  have h1 : M * (i : ℚ) ≤ M * 999 := mul_le_mul_of_nonneg_left hi999 hM
  have h2 : M * (i : ℚ) / 999 ≤ M * 999 / 999 :=
    div_le_div_of_nonneg_right h1 (by norm_num : (0 : ℚ) ≤ 999)
  calc M * (i : ℚ) / 999 ≤ M * 999 / 999 := h2
    _ = M := by
        rw [mul_div_assoc, div_self (by norm_num : (999 : ℚ) ≠ 0), mul_one]

theorem linspace_pairwise (M : ℚ) (hM : 0 ≤ M) :
    (linspace M).Pairwise (· ≤ ·) := by
  unfold linspace
  rw [List.pairwise_map]
  apply (List.pairwise_lt_range 1000).imp
  intro a b hab
  apply div_le_div_of_nonneg_right _ (by norm_num : (0 : ℚ) ≤ 999)
  exact mul_le_mul_of_nonneg_left (by exact_mod_cast le_of_lt hab) hM

/-! ### The event view of the scan -/

theorem mem_events (inp : MatcherInput) (e : ℚ × Nat) :
    e ∈ events inp ↔ e.1 ∈ linspace inp.maxThresh ∧ e.2 ∈ uniqueLabels (inp.cut e.1) := by
  unfold events
  rw [List.mem_flatMap]
  constructor
  · rintro ⟨t, ht, he⟩
    rcases List.mem_map.mp he with ⟨l, hl, rfl⟩
    exact ⟨ht, hl⟩
  · rintro ⟨ht, hl⟩
    exact ⟨e.1, ht, List.mem_map.mpr ⟨e.2, hl, rfl⟩⟩

theorem events_pairwise_fst (inp : MatcherInput) (hM : 0 ≤ inp.maxThresh) :
    (events inp).Pairwise (fun a b => a.1 ≤ b.1) := by
  unfold events
  have key : ∀ (L : List ℚ), L.Pairwise (· ≤ ·) →
      (L.flatMap (fun t => (uniqueLabels (inp.cut t)).map (fun l => (t, l)))).Pairwise
        (fun a b => a.1 ≤ b.1) := by
    intro L
    induction L with
    | nil => intro _; simp
    | cons t L ih =>
      intro hp
      rw [List.pairwise_cons] at hp
      rw [List.flatMap_cons, List.pairwise_append]
      refine ⟨?_, ih hp.2, ?_⟩
      · apply List.pairwise_of_forall_mem_list
        intro a ha b hb
        rcases List.mem_map.mp ha with ⟨la, _, rfl⟩
        rcases List.mem_map.mp hb with ⟨lb, _, rfl⟩
        exact le_refl t
      · intro a ha b hb
        rcases List.mem_map.mp ha with ⟨la, _, rfl⟩
        rcases List.mem_flatMap.mp hb with ⟨u, hu, hbu⟩
        rcases List.mem_map.mp hbu with ⟨lb, _, rfl⟩
        exact hp.1 u hu
  exact key _ (linspace_pairwise _ hM)

theorem scanThresh_eq (inp : MatcherInput) (cg : Finset Nat) (cid : Nat)
    (st : MatchState) (t : ℚ) :
    scanThresh inp cg cid st t =
      ((uniqueLabels (inp.cut t)).map (fun l => (t, l))).foldl (stepEvent inp cg cid) st := by
  unfold scanThresh
  rw [List.foldl_map]

theorem scanComplex_eq (inp : MatcherInput) (cg : Finset Nat) (cid : Nat)
    (st : MatchState) :
    scanComplex inp cg cid st = (events inp).foldl (stepEvent inp cg cid) st := by
  unfold scanComplex events
  rw [foldl_flatMap_eq]
  have h : ∀ (L : List ℚ) (s : MatchState),
      L.foldl (scanThresh inp cg cid) s =
        L.foldl (fun s t => ((uniqueLabels (inp.cut t)).map (fun l => (t, l))).foldl
          (stepEvent inp cg cid) s) s := by
    intro L
    induction L with
    | nil => intro s; rfl
    | cons t L ih =>
      intro s
      rw [List.foldl_cons, List.foldl_cons, ih, scanThresh_eq]
  exact h _ st

/-! ### `updateAssoc` -/

theorem updateAssoc_not_mem (l : List (Nat × List Nat)) (k : Nat) (v : List Nat)
    (h : k ∉ l.map Prod.fst) : updateAssoc l k v = l ++ [(k, v)] := by
  unfold updateAssoc
  rw [if_neg]
  rw [Bool.not_eq_true, List.any_eq_false]
  intro p hp
  simp only [beq_iff_eq]
  intro hk
  exact h (hk ▸ List.mem_map_of_mem Prod.fst hp)

theorem updateAssoc_append_self (A : List (Nat × List Nat)) (k : Nat)
    (M v : List Nat) (h : k ∉ A.map Prod.fst) :
    updateAssoc (A ++ [(k, M)]) k v = A ++ [(k, v)] := by
  unfold updateAssoc
  rw [if_pos]
  · rw [List.map_append]
    congr 1
    · have hid : ∀ p ∈ A, (if (p.1 == k) = true then (k, v) else p) = id p := by
        intro p hp
        rw [if_neg, id]
        simp only [beq_iff_eq]
        intro hk
        exact h (hk ▸ List.mem_map_of_mem Prod.fst hp)
      rw [List.map_congr_left hid, List.map_id]
    · simp
  · rw [List.any_append]
    apply Bool.or_eq_true_iff.mpr
    right
    simp

end Bionic

namespace Bionic

/-! ### Monotonicity of `best_jaccard` and unchanged-state lemmas -/

theorem bestStep_fst_le (inp : MatcherInput) (cg : Finset Nat)
    (p : ℚ × Option (List Nat)) (e : ℚ × Nat) : p.1 ≤ (bestStep inp cg p e).1 := by
  unfold bestStep
  by_cases hlen : (clusterIdxs (inp.cut e.1) e.2).length < 2
  · rw [if_pos hlen]
  · rw [if_neg hlen]
    by_cases hc : p.1 < jaccardQ (clusterGenesOf inp (clusterIdxs (inp.cut e.1) e.2)) cg ∧
        (1 : ℚ)/2 ≤ jaccardQ (clusterGenesOf inp (clusterIdxs (inp.cut e.1) e.2)) cg
    · rw [if_pos hc]
      exact le_of_lt hc.1
    · rw [if_neg hc]

theorem bestStep_fold_fst_le (inp : MatcherInput) (cg : Finset Nat) :
    ∀ (E : List (ℚ × Nat)) (p : ℚ × Option (List Nat)),
      p.1 ≤ (E.foldl (bestStep inp cg) p).1 := by
  intro E
  induction E with
  | nil => intro p; exact le_refl _
  | cons e E ih =>
    intro p
    rw [List.foldl_cons]
    exact le_trans (bestStep_fst_le inp cg p e) (ih _)

theorem bestStep_cases (inp : MatcherInput) (cg : Finset Nat)
    (p : ℚ × Option (List Nat)) (e : ℚ × Nat) :
    bestStep inp cg p e = p ∨
      (bestStep inp cg p e =
          (jaccardQ (clusterGenesOf inp (clusterIdxs (inp.cut e.1) e.2)) cg,
           some (clusterIdxs (inp.cut e.1) e.2)) ∧
        2 ≤ (clusterIdxs (inp.cut e.1) e.2).length ∧
        p.1 < jaccardQ (clusterGenesOf inp (clusterIdxs (inp.cut e.1) e.2)) cg ∧
        (1 : ℚ)/2 ≤ jaccardQ (clusterGenesOf inp (clusterIdxs (inp.cut e.1) e.2)) cg) := by
  unfold bestStep
  by_cases hlen : (clusterIdxs (inp.cut e.1) e.2).length < 2
  · left; rw [if_pos hlen]
  · by_cases hc : p.1 < jaccardQ (clusterGenesOf inp (clusterIdxs (inp.cut e.1) e.2)) cg ∧
        (1 : ℚ)/2 ≤ jaccardQ (clusterGenesOf inp (clusterIdxs (inp.cut e.1) e.2)) cg
    · right
      rw [if_neg hlen, if_pos hc]
      exact ⟨rfl, le_of_not_lt hlen, hc.1, hc.2⟩
    · left; rw [if_neg hlen, if_neg hc]

theorem bestStep_fold_none_eq (inp : MatcherInput) (cg : Finset Nat) :
    ∀ (E : List (ℚ × Nat)) (p : ℚ × Option (List Nat)),
      p.2 = none → (E.foldl (bestStep inp cg) p).2 = none →
      E.foldl (bestStep inp cg) p = p := by
  intro E
  induction E with
  | nil => intro p _ _; rfl
  | cons e E ih =>
    intro p hp hfold
    rw [List.foldl_cons] at *
    rcases bestStep_cases inp cg p e with h | h
    · rw [h] at hfold ⊢
      exact ih p hp hfold
    · exfalso
      -- after a capture the recorded match stays `some`
      have hsome : ∀ (E' : List (ℚ × Nat)) (q : ℚ × Option (List Nat)),
          q.2 ≠ none → (E'.foldl (bestStep inp cg) q).2 ≠ none := by
        intro E'
        induction E' with
        | nil => intro q hq; exact hq
        | cons e' E' ih' =>
          intro q hq
          rw [List.foldl_cons]
          rcases bestStep_cases inp cg q e' with h' | h'
          · rw [h']; exact ih' q hq
          · rw [h'.1]; exact ih' _ (by simp)
      exact hsome E _ (by rw [h.1]; simp) hfold

/-! ### Coupling the full scan state with the per-complex view -/

theorem step_coupling (inp : MatcherInput) (cg : Finset Nat) (cid : Nat)
    (A : List (Nat × List Nat)) (hA : cid ∉ A.map Prod.fst)
    (h b : ℚ) (o : Option (List Nat)) (e : ℚ × Nat) :
    ∃ h' : ℚ,
      stepEvent inp cg cid ⟨h, A ++ (o.map (fun M => (cid, M))).toList, b⟩ e =
        ⟨h', A ++ (((bestStep inp cg (b, o) e).2).map (fun M => (cid, M))).toList,
         (bestStep inp cg (b, o) e).1⟩ := by
  unfold stepEvent bestStep
  by_cases hlen : (clusterIdxs (inp.cut e.1) e.2).length < 2
  · exact ⟨h, by rw [if_pos hlen, if_pos hlen]⟩
  · by_cases hc : b < jaccardQ (clusterGenesOf inp (clusterIdxs (inp.cut e.1) e.2)) cg ∧
        (1 : ℚ)/2 ≤ jaccardQ (clusterGenesOf inp (clusterIdxs (inp.cut e.1) e.2)) cg
    · refine ⟨if h < e.1 then e.1 else h, ?_⟩
      rw [if_neg hlen, if_neg hlen, if_pos hc, if_pos hc]
      have hupd : updateAssoc (A ++ (o.map (fun M => (cid, M))).toList) cid
          (clusterIdxs (inp.cut e.1) e.2) = A ++ [(cid, clusterIdxs (inp.cut e.1) e.2)] := by
        cases o with
        | none => simpa using updateAssoc_not_mem A cid _ hA
        | some M => simpa using updateAssoc_append_self A cid M _ hA
      rw [hupd]
      simp
    · exact ⟨h, by rw [if_neg hlen, if_neg hlen, if_neg hc, if_neg hc]⟩

theorem fold_coupling (inp : MatcherInput) (cg : Finset Nat) (cid : Nat)
    (A : List (Nat × List Nat)) (hA : cid ∉ A.map Prod.fst) :
    ∀ (E : List (ℚ × Nat)) (h b : ℚ) (o : Option (List Nat)),
      ∃ h' : ℚ,
        E.foldl (stepEvent inp cg cid) ⟨h, A ++ (o.map (fun M => (cid, M))).toList, b⟩ =
          ⟨h', A ++ (((E.foldl (bestStep inp cg) (b, o)).2).map (fun M => (cid, M))).toList,
           (E.foldl (bestStep inp cg) (b, o)).1⟩ := by
  intro E
  induction E with
  | nil => intro h b o; exact ⟨h, rfl⟩
  | cons e E ih =>
    intro h b o
    rw [List.foldl_cons, List.foldl_cons]
    rcases step_coupling inp cg cid A hA h b o e with ⟨h1, hstep⟩
    rw [hstep]
    exact ih h1 (bestStep inp cg (b, o) e).1 (bestStep inp cg (b, o) e).2

end Bionic

namespace Bionic

/-! ### The full scan state changes only on captures -/

theorem stepEvent_cases (inp : MatcherInput) (cg : Finset Nat) (cid : Nat)
    (st : MatchState) (e : ℚ × Nat) :
    stepEvent inp cg cid st e = st ∨
      (stepEvent inp cg cid st e =
          ⟨if st.highest < e.1 then e.1 else st.highest,
           updateAssoc st.assignments cid (clusterIdxs (inp.cut e.1) e.2),
           jaccardQ (clusterGenesOf inp (clusterIdxs (inp.cut e.1) e.2)) cg⟩ ∧
        2 ≤ (clusterIdxs (inp.cut e.1) e.2).length ∧
        st.best < jaccardQ (clusterGenesOf inp (clusterIdxs (inp.cut e.1) e.2)) cg ∧
        (1 : ℚ)/2 ≤ jaccardQ (clusterGenesOf inp (clusterIdxs (inp.cut e.1) e.2)) cg) := by
  unfold stepEvent
  by_cases hlen : (clusterIdxs (inp.cut e.1) e.2).length < 2
  · left; rw [if_pos hlen]
  · by_cases hc : st.best < jaccardQ (clusterGenesOf inp (clusterIdxs (inp.cut e.1) e.2)) cg ∧
        (1 : ℚ)/2 ≤ jaccardQ (clusterGenesOf inp (clusterIdxs (inp.cut e.1) e.2)) cg
    · right
      rw [if_neg hlen, if_pos hc]
      exact ⟨rfl, le_of_not_lt hlen, hc.1, hc.2⟩
    · left; rw [if_neg hlen, if_neg hc]

theorem stepEvent_best_le (inp : MatcherInput) (cg : Finset Nat) (cid : Nat)
    (st : MatchState) (e : ℚ × Nat) : st.best ≤ (stepEvent inp cg cid st e).best := by
  rcases stepEvent_cases inp cg cid st e with h | h
  · rw [h]
  · rw [h.1]
    exact le_of_lt h.2.2.1

theorem stepEvent_fold_best_le (inp : MatcherInput) (cg : Finset Nat) (cid : Nat) :
    ∀ (E : List (ℚ × Nat)) (st : MatchState),
      st.best ≤ (E.foldl (stepEvent inp cg cid) st).best := by
  intro E
  induction E with
  | nil => intro st; exact le_refl _
  | cons e E ih =>
    intro st
    rw [List.foldl_cons]
    exact le_trans (stepEvent_best_le inp cg cid st e) (ih _)

theorem stepEvent_fold_of_best_eq (inp : MatcherInput) (cg : Finset Nat) (cid : Nat) :
    ∀ (E : List (ℚ × Nat)) (st : MatchState),
      (E.foldl (stepEvent inp cg cid) st).best = st.best →
      E.foldl (stepEvent inp cg cid) st = st := by
  intro E
  induction E with
  | nil => intro st _; rfl
  | cons e E ih =>
    intro st hbest
    rw [List.foldl_cons] at hbest ⊢
    rcases stepEvent_cases inp cg cid st e with h | h
    · rw [h] at hbest ⊢
      exact ih st hbest
    · exfalso
      have h1 : st.best < (stepEvent inp cg cid st e).best := by
        rw [h.1]
        exact h.2.2.1
      have h2 := stepEvent_fold_best_le inp cg cid E (stepEvent inp cg cid st e)
      linarith

end Bionic

namespace Bionic

/-! ### What one complex contributes to `assignments` -/

theorem contribution_key (inp : MatcherInput) (c : Nat × List Nat)
    (p : Nat × List Nat) (h : contribution inp c = some p) : p.1 = c.1 := by
  unfold contribution at h
  by_cases hp : presentCount inp c.2 < 2
  · rw [if_pos hp] at h; cases h
  · rw [if_neg hp] at h
    cases hbm : bestMatch inp c.2.toFinset with
    | none => rw [hbm] at h; cases h
    | some M =>
      rw [hbm, show Option.map (fun M => (c.1, M)) (some M) = some (c.1, M) from rfl] at h
      cases h
      rfl

theorem processComplex_char (inp : MatcherInput) (h : ℚ) (A : List (Nat × List Nat))
    (c : Nat × List Nat) (hA : c.1 ∉ A.map Prod.fst) :
    (∃ h' : ℚ, processComplex inp (h, A) c = (h', A ++ (contribution inp c).toList)) ∧
      (contribution inp c = none → processComplex inp (h, A) c = (h, A)) := by
  unfold processComplex contribution
  by_cases hp : presentCount inp c.2 < 2
  · rw [if_pos hp, if_pos hp]
    exact ⟨⟨h, by simp⟩, fun _ => rfl⟩
  · rw [if_neg hp, if_neg hp]
    have hinit : (⟨h, A, 0⟩ : MatchState) =
        ⟨h, A ++ ((Option.map (fun M => (c.1, M)) none).toList), 0⟩ := by simp
    have hfold := fold_coupling inp c.2.toFinset c.1 A hA (events inp) h 0 none
    rcases hfold with ⟨h', hfold⟩
    constructor
    · refine ⟨h', ?_⟩
      rw [scanComplex_eq, hinit, hfold]
      simp only [bestMatch]
    · intro hnone
      have hbm : bestMatch inp c.2.toFinset = none := by
        cases hbm : bestMatch inp c.2.toFinset with
        | none => rfl
        | some M => rw [hbm] at hnone; simp at hnone
      unfold bestMatch at hbm
      have hfix := bestStep_fold_none_eq inp c.2.toFinset (events inp) (0, none) rfl hbm
      have hbests : (scanComplex inp c.2.toFinset c.1 ⟨h, A, 0⟩).best = 0 := by
        rw [scanComplex_eq, hinit, hfold, hfix]
      have := stepEvent_fold_of_best_eq inp c.2.toFinset c.1 (events inp) ⟨h, A, 0⟩
        (by rw [← scanComplex_eq]; exact hbests)
      rw [scanComplex_eq, this]

theorem foldl_processComplex_char (inp : MatcherInput) :
    ∀ (l : List (Nat × List Nat)) (h : ℚ) (A : List (Nat × List Nat)),
      (l.map Prod.fst).Nodup → (∀ c ∈ l, c.1 ∉ A.map Prod.fst) →
      ∃ h' : ℚ, l.foldl (processComplex inp) (h, A) =
        (h', A ++ l.filterMap (contribution inp)) := by
  intro l
  induction l with
  | nil => intro h A _ _; exact ⟨h, by simp⟩
  | cons c l ih =>
    intro h A hnd hfresh
    rw [List.map_cons, List.nodup_cons] at hnd
    rw [List.foldl_cons]
    rcases (processComplex_char inp h A c (hfresh c (List.mem_cons_self c _))).1 with ⟨h1, hc⟩
    rw [hc]
    have hfresh2 : ∀ c' ∈ l, c'.1 ∉ (A ++ (contribution inp c).toList).map Prod.fst := by
      intro c' hc' hmem
      rw [List.map_append, List.mem_append] at hmem
      rcases hmem with hm | hm
      · exact hfresh c' (List.mem_cons_of_mem c hc') hm
      · cases hcontr : contribution inp c with
        | none => rw [hcontr] at hm; simp at hm
        | some p =>
          rw [hcontr] at hm
          simp only [Option.toList_some, List.map_cons, List.map_nil] at hm
          rcases List.mem_singleton.mp hm with hm1
          rw [contribution_key inp c p hcontr] at hm1
          exact hnd.1 (hm1 ▸ List.mem_map_of_mem Prod.fst hc')
    rcases ih h1 (A ++ (contribution inp c).toList) hnd.2 hfresh2 with ⟨h2, hrec⟩
    refine ⟨h2, ?_⟩
    rw [hrec, List.filterMap_cons, List.append_assoc]
    cases hcontr : contribution inp c with
    | none => simp
    | some p => simp

theorem runScan_char (inp : MatcherInput)
    (hnd : (inp.complexes.map Prod.fst).Nodup) :
    ∃ h' : ℚ, runScan inp = (h', inp.complexes.filterMap (contribution inp)) := by
  unfold runScan
  rcases foldl_processComplex_char inp inp.complexes 0 [] hnd (by simp) with ⟨h', hr⟩
  exact ⟨h', by rw [hr]; simp⟩

theorem foldl_processComplex_none (inp : MatcherInput) :
    ∀ (l : List (Nat × List Nat)) (h : ℚ) (A : List (Nat × List Nat)),
      (∀ c ∈ l, c.1 ∉ A.map Prod.fst) → (∀ c ∈ l, contribution inp c = none) →
      l.foldl (processComplex inp) (h, A) = (h, A) := by
  intro l
  induction l with
  | nil => intro h A _ _; rfl
  | cons c l ih =>
    intro h A hfresh hnone
    rw [List.foldl_cons]
    rw [(processComplex_char inp h A c (hfresh c (List.mem_cons_self c _))).2
      (hnone c (List.mem_cons_self c _))]
    exact ih h A (fun c' hc' => hfresh c' (List.mem_cons_of_mem c hc'))
      (fun c' hc' => hnone c' (List.mem_cons_of_mem c hc'))

end Bionic

namespace Bionic

/-! ### Captures and eligible events -/

theorem eligB_true_iff (inp : MatcherInput) (cg : Finset Nat) (e : ℚ × Nat) :
    eligB inp cg e = true ↔
      2 ≤ (clusterIdxs (inp.cut e.1) e.2).length ∧ (1 : ℚ)/2 ≤ scoreOf inp cg e := by
  unfold eligB
  rw [Bool.and_eq_true, decide_eq_true_iff, decide_eq_true_iff]

theorem bestStep_eq_self_score (inp : MatcherInput) (cg : Finset Nat)
    (p : ℚ × Option (List Nat)) (e : ℚ × Nat) (hq : bestStep inp cg p e = p)
    (he : eligB inp cg e = true) : scoreOf inp cg e ≤ p.1 := by
  rcases (eligB_true_iff inp cg e).mp he with ⟨hlen, hhalf⟩
  unfold bestStep at hq
  rw [if_neg (not_lt.mpr hlen)] at hq
  by_cases hc : p.1 < jaccardQ (clusterGenesOf inp (clusterIdxs (inp.cut e.1) e.2)) cg ∧
      (1 : ℚ)/2 ≤ jaccardQ (clusterGenesOf inp (clusterIdxs (inp.cut e.1) e.2)) cg
  · rw [if_pos hc] at hq
    have : p.1 = jaccardQ (clusterGenesOf inp (clusterIdxs (inp.cut e.1) e.2)) cg := by
      rw [← hq]
    exact le_of_eq this.symm
  · rw [if_neg hc] at hq
    rcases not_and_or.mp hc with h | h
    · exact le_of_not_lt h
    · exact absurd hhalf h

theorem bestStep_fold_some (inp : MatcherInput) (cg : Finset Nat) :
    ∀ (E : List (ℚ × Nat)) (q : ℚ × Option (List Nat)),
      q.2 ≠ none → (E.foldl (bestStep inp cg) q).2 ≠ none := by
  intro E
  induction E with
  | nil => intro q hq; exact hq
  | cons e E ih =>
    intro q hq
    rw [List.foldl_cons]
    rcases bestStep_cases inp cg q e with h | h
    · rw [h]; exact ih q hq
    · rw [h.1]; exact ih _ (by simp)

theorem bestStep_fold_none_iff (inp : MatcherInput) (cg : Finset Nat) :
    ∀ (E : List (ℚ × Nat)) (p : ℚ × Option (List Nat)), (p.2 = none → p.1 = 0) →
      ((E.foldl (bestStep inp cg) p).2 = none ↔
        p.2 = none ∧ ∀ e ∈ E, eligB inp cg e = false) := by
  intro E
  induction E with
  | nil =>
    intro p _
    simp
  | cons e E ih =>
    intro p hp
    rw [List.foldl_cons]
    rcases bestStep_cases inp cg p e with h | h
    · rw [h]
      cases heb : eligB inp cg e with
      | false =>
        rw [ih p hp]
        constructor
        · rintro ⟨h1, h2⟩
          refine ⟨h1, ?_⟩
          intro e' he'
          rcases List.mem_cons.mp he' with rfl | he'
          · exact heb
          · exact h2 e' he'
        · rintro ⟨h1, h2⟩
          exact ⟨h1, fun e' he' => h2 e' (List.mem_cons_of_mem e he')⟩
      | true =>
        have hscore := bestStep_eq_self_score inp cg p e h heb
        have hhalf := ((eligB_true_iff inp cg e).mp heb).2
        have hpos : (0 : ℚ) < p.1 := by
          have : (0 : ℚ) < 1/2 := by norm_num
          linarith
        have hpnone : p.2 ≠ none := by
          intro hcon
          have := hp hcon
          linarith
        constructor
        · intro hfold
          exact absurd hfold (bestStep_fold_some inp cg E p hpnone)
        · rintro ⟨h1, _⟩
          exact absurd h1 hpnone
    · have heb : eligB inp cg e = true :=
        (eligB_true_iff inp cg e).mpr ⟨h.2.1, h.2.2.2⟩
      rw [h.1]
      constructor
      · intro hfold
        exact absurd hfold (bestStep_fold_some inp cg E _ (by simp))
      · rintro ⟨_, h2⟩
        exact absurd heb (by rw [h2 e (List.mem_cons_self e E)]; simp)

theorem bestMatch_none_iff (inp : MatcherInput) (cg : Finset Nat) :
    bestMatch inp cg = none ↔ ∀ e ∈ events inp, eligB inp cg e = false := by
  unfold bestMatch
  rw [bestStep_fold_none_iff inp cg (events inp) (0, none) (fun _ => rfl)]
  simp

end Bionic

namespace Bionic

/-- The per-complex scan either never captures (and every eligible event is
bounded by the initial score), or its final record comes from the earliest
eligible event achieving the final best score: every eligible event scores at
most the final best, and every eligible event strictly before the recording
one scores strictly below it. -/
theorem bestStep_fold_spec (inp : MatcherInput) (cg : Finset Nat) :
    ∀ (E : List (ℚ × Nat)) (p : ℚ × Option (List Nat)),
      (E.foldl (bestStep inp cg) p = p ∧
        ∀ e ∈ E, eligB inp cg e = true → scoreOf inp cg e ≤ p.1) ∨
      (∃ pre ev suf, E = pre ++ ev :: suf ∧ eligB inp cg ev = true ∧
        p.1 < scoreOf inp cg ev ∧
        (E.foldl (bestStep inp cg) p).1 = scoreOf inp cg ev ∧
        (E.foldl (bestStep inp cg) p).2 = some (clusterIdxs (inp.cut ev.1) ev.2) ∧
        (∀ e ∈ E, eligB inp cg e = true →
          scoreOf inp cg e ≤ (E.foldl (bestStep inp cg) p).1) ∧
        (∀ e ∈ pre, eligB inp cg e = true →
          scoreOf inp cg e < (E.foldl (bestStep inp cg) p).1)) := by
  intro E
  induction E with
  | nil =>
    intro p
    left
    exact ⟨rfl, by simp⟩
  | cons e E ih =>
    intro p
    rw [List.foldl_cons]
    rcases bestStep_cases inp cg p e with hno | hcap
    · rw [hno]
      have hbnd : eligB inp cg e = true → scoreOf inp cg e ≤ p.1 :=
        bestStep_eq_self_score inp cg p e hno
      rcases ih p with ⟨hql, hbound⟩ | ⟨pre, ev, suf, hE, helig, hlt, h1, h2, hall, hpre⟩
      · left
        refine ⟨hql, ?_⟩
        intro e' he' helig'
        rcases List.mem_cons.mp he' with rfl | he'
        · exact hbnd helig'
        · exact hbound e' he' helig'
      · right
        refine ⟨e :: pre, ev, suf, by rw [hE]; rfl, helig, hlt, h1, h2, ?_, ?_⟩
        · intro e' he' helig'
          rcases List.mem_cons.mp he' with rfl | he'
          · rw [h1]
            exact le_of_lt (lt_of_le_of_lt (hbnd helig') hlt)
          · exact hall e' he' helig'
        · intro e' he' helig'
          rcases List.mem_cons.mp he' with rfl | he'
          · rw [h1]
            exact lt_of_le_of_lt (hbnd helig') hlt
          · exact hpre e' he' helig'
    · have heb : eligB inp cg e = true :=
        (eligB_true_iff inp cg e).mpr ⟨hcap.2.1, hcap.2.2.2⟩
      have hscoree : scoreOf inp cg e =
          jaccardQ (clusterGenesOf inp (clusterIdxs (inp.cut e.1) e.2)) cg := rfl
      rw [hcap.1]
      set q : ℚ × Option (List Nat) :=
        (jaccardQ (clusterGenesOf inp (clusterIdxs (inp.cut e.1) e.2)) cg,
         some (clusterIdxs (inp.cut e.1) e.2)) with hq
      have hq1 : q.1 = scoreOf inp cg e := rfl
      rcases ih q with ⟨hql, hbound⟩ | ⟨pre, ev, suf, hE, helig, hlt, h1, h2, hall, hpre⟩
      · right
        refine ⟨[], e, E, rfl, heb, hcap.2.2.1, ?_, ?_, ?_, by simp⟩
        · rw [hql, hq1]
        · rw [hql]
        · intro e' he' helig'
          rcases List.mem_cons.mp he' with rfl | he'
          · rw [hql, hq1]
          · rw [hql]
            exact hbound e' he' helig'
      · right
        refine ⟨e :: pre, ev, suf, by rw [hE]; rfl, helig, ?_, h1, h2, ?_, ?_⟩
        · calc p.1 < q.1 := by rw [hq1]; exact hcap.2.2.1
            _ < scoreOf inp cg ev := hlt
        · intro e' he' helig'
          rcases List.mem_cons.mp he' with rfl | he'
          · rw [h1]
            exact le_of_lt (by rw [← hq1]; exact hlt)
          · exact hall e' he' helig'
        · intro e' he' helig'
          rcases List.mem_cons.mp he' with rfl | he'
          · rw [h1, ← hq1]
            exact hlt
          · exact hpre e' he' helig'

end Bionic

namespace Bionic

/-! ### The `gene_assignments` array -/

theorem writeLabel_length (ga : List Nat) (idxs : List Nat) (v : Nat) :
    (writeLabel ga idxs v).length = ga.length := by
  unfold writeLabel
  rw [List.length_map, List.length_range]

theorem writeLabel_getD (ga : List Nat) (idxs : List Nat) (v : Nat) (j : Nat)
    (hj : j < ga.length) :
    (writeLabel ga idxs v).getD j 0 = if j ∈ idxs then v else ga.getD j 0 := by
  unfold writeLabel
  rw [getD_range_map ga.length _ j hj]

theorem writeLabel_getD_not_mem (ga : List Nat) (idxs : List Nat) (v : Nat) (j : Nat)
    (hj : j ∉ idxs) : (writeLabel ga idxs v).getD j 0 = ga.getD j 0 := by
  by_cases h : j < ga.length
  · rw [writeLabel_getD ga idxs v j h, if_neg hj]
  · rw [List.getD_eq_default _ _ (by rw [writeLabel_length]; omega),
      List.getD_eq_default _ _ (by omega)]

theorem buildGAFrom_length :
    ∀ (asg : List (Nat × List Nat)) (ga : List Nat) (i : Nat),
      (buildGAFrom ga i asg).length = ga.length := by
  intro asg
  induction asg with
  | nil => intro ga i; rfl
  | cons p rest ih =>
    intro ga i
    unfold buildGAFrom
    rw [ih, writeLabel_length]

theorem buildGAFrom_untouched :
    ∀ (asg : List (Nat × List Nat)) (ga : List Nat) (i j : Nat),
      (∀ q ∈ asg, j ∉ q.2) → (buildGAFrom ga i asg).getD j 0 = ga.getD j 0 := by
  intro asg
  induction asg with
  | nil => intro ga i j _; rfl
  | cons p rest ih =>
    intro ga i j hnotin
    unfold buildGAFrom
    rw [ih _ _ _ (fun q hq => hnotin q (List.mem_cons_of_mem p hq)),
      writeLabel_getD_not_mem ga p.2 (i + 1) j (hnotin p (List.mem_cons_self p rest))]

theorem buildGAFrom_getD_nonzero_iff :
    ∀ (asg : List (Nat × List Nat)) (ga : List Nat) (i j : Nat), j < ga.length →
      ((buildGAFrom ga i asg).getD j 0 ≠ 0 ↔
        ga.getD j 0 ≠ 0 ∨ ∃ p ∈ asg, j ∈ p.2) := by
  intro asg
  induction asg with
  | nil =>
    intro ga i j _
    simp [buildGAFrom]
  | cons p rest ih =>
    intro ga i j hj
    unfold buildGAFrom
    rw [ih _ _ _ (by rw [writeLabel_length]; exact hj), writeLabel_getD ga p.2 _ j hj]
    by_cases hmem : j ∈ p.2
    · rw [if_pos hmem]
      constructor
      · intro _
        right
        exact ⟨p, List.mem_cons_self p rest, hmem⟩
      · intro _
        left
        omega
    · rw [if_neg hmem]
      constructor
      · rintro (h | ⟨q, hq, hjq⟩)
        · exact Or.inl h
        · exact Or.inr ⟨q, List.mem_cons_of_mem p hq, hjq⟩
      · rintro (h | ⟨q, hq, hjq⟩)
        · exact Or.inl h
        · rcases List.mem_cons.mp hq with rfl | hq
          · exact absurd hjq hmem
          · exact Or.inr ⟨q, hq, hjq⟩

theorem buildGAFrom_lastwins :
    ∀ (pre : List (Nat × List Nat)) (p : Nat × List Nat)
      (suf : List (Nat × List Nat)) (ga : List Nat) (i j : Nat),
      j < ga.length → j ∈ p.2 → (∀ q ∈ suf, j ∉ q.2) →
      (buildGAFrom ga i (pre ++ p :: suf)).getD j 0 = i + pre.length + 1 := by
  intro pre
  induction pre with
  | nil =>
    intro p suf ga i j hj hjp hsuf
    rw [List.nil_append]
    unfold buildGAFrom
    rw [buildGAFrom_untouched suf _ _ _ hsuf, writeLabel_getD ga p.2 _ j hj, if_pos hjp]
    simp
  | cons q pre ih =>
    intro p suf ga i j hj hjp hsuf
    rw [List.cons_append]
    unfold buildGAFrom
    rw [ih p suf _ _ _ (by rw [writeLabel_length]; exact hj) hjp hsuf]
    simp [List.length_cons]
    omega

theorem buildGA_length (n : Nat) (asg : List (Nat × List Nat)) :
    (buildGA n asg).length = n := by
  unfold buildGA
  rw [buildGAFrom_length, List.length_replicate]

theorem buildGA_getD_nonzero_iff (n : Nat) (asg : List (Nat × List Nat)) (j : Nat)
    (hj : j < n) : ((buildGA n asg).getD j 0 ≠ 0 ↔ ∃ p ∈ asg, j ∈ p.2) := by
  unfold buildGA
  rw [buildGAFrom_getD_nonzero_iff asg _ 0 j (by rw [List.length_replicate]; exact hj),
    getD_replicate, if_pos hj]
  simp

theorem buildGA_getD_oob (n : Nat) (asg : List (Nat × List Nat)) (j : Nat)
    (hj : n ≤ j) : (buildGA n asg).getD j 0 = 0 := by
  apply List.getD_eq_default
  rw [buildGA_length]
  exact hj

theorem buildGA_lastwins (n : Nat) (pre : List (Nat × List Nat))
    (p : Nat × List Nat) (suf : List (Nat × List Nat)) (j : Nat)
    (hj : j < n) (hjp : j ∈ p.2) (hsuf : ∀ q ∈ suf, j ∉ q.2) :
    (buildGA n (pre ++ p :: suf)).getD j 0 = pre.length + 1 := by
  unfold buildGA
  rw [buildGAFrom_lastwins pre p suf _ 0 j (by rw [List.length_replicate]; exact hj) hjp hsuf]
  omega

theorem get_first_level_clusters_getD (inp : MatcherInput) (j : Nat)
    (hj : j < inp.commonGenes.length) :
    (get_first_level_clusters inp).getD j 0 =
      if (buildGA inp.commonGenes.length (runScan inp).2).getD j 0 ≠ 0
      then (buildGA inp.commonGenes.length (runScan inp).2).getD j 0
      else (buildGA inp.commonGenes.length (runScan inp).2).foldr max 0 + 1 +
        (inp.cut ((runScan inp).1 + 1/10)).getD j 0 := by
  unfold get_first_level_clusters
  rw [getD_range_map _ _ j hj]

theorem get_first_level_clusters_length (inp : MatcherInput) :
    (get_first_level_clusters inp).length = inp.commonGenes.length := by
  unfold get_first_level_clusters
  rw [List.length_map, List.length_range]

end Bionic

namespace Bionic

/-! ### `highest_thresh` helpers -/

theorem stepEvent_highest_le (inp : MatcherInput) (cg : Finset Nat) (cid : Nat)
    (st : MatchState) (e : ℚ × Nat) : st.highest ≤ (stepEvent inp cg cid st e).highest := by
  rcases stepEvent_cases inp cg cid st e with h | h
  · rw [h]
  · rw [h.1]
    by_cases hl : st.highest < e.1
    · simp only [if_pos hl]
      exact le_of_lt hl
    · simp only [if_neg hl]
      exact le_refl _

theorem stepEvent_highest_mem (inp : MatcherInput) (cg : Finset Nat) (cid : Nat)
    (st : MatchState) (e : ℚ × Nat) :
    (stepEvent inp cg cid st e).highest = st.highest ∨
      (stepEvent inp cg cid st e).highest = e.1 := by
  rcases stepEvent_cases inp cg cid st e with h | h
  · left; rw [h]
  · rw [h.1]
    by_cases hl : st.highest < e.1
    · right; simp only [if_pos hl]
    · left; simp only [if_neg hl]

theorem stepEvent_fold_highest_le (inp : MatcherInput) (cg : Finset Nat) (cid : Nat) :
    ∀ (E : List (ℚ × Nat)) (st : MatchState),
      st.highest ≤ (E.foldl (stepEvent inp cg cid) st).highest := by
  intro E
  induction E with
  | nil => intro st; exact le_refl _
  | cons e E ih =>
    intro st
    rw [List.foldl_cons]
    exact le_trans (stepEvent_highest_le inp cg cid st e) (ih _)

theorem stepEvent_fold_highest_bound (inp : MatcherInput) (cg : Finset Nat) (cid : Nat)
    (M : ℚ) : ∀ (E : List (ℚ × Nat)) (st : MatchState),
      (∀ e ∈ E, e.1 ≤ M) → st.highest ≤ M →
      (E.foldl (stepEvent inp cg cid) st).highest ≤ M := by
  intro E
  induction E with
  | nil => intro st _ hst; exact hst
  | cons e E ih =>
    intro st hE hst
    rw [List.foldl_cons]
    refine ih _ (fun e' he' => hE e' (List.mem_cons_of_mem e he')) ?_
    rcases stepEvent_highest_mem inp cg cid st e with h | h
    · rw [h]; exact hst
    · rw [h]; exact hE e (List.mem_cons_self e E)

set_option maxRecDepth 4000 in
theorem processComplex_highest_le (inp : MatcherInput)
    (st : ℚ × List (Nat × List Nat)) (c : Nat × List Nat) :
    st.1 ≤ (processComplex inp st c).1 := by
  unfold processComplex
  by_cases hp : presentCount inp c.2 < 2
  · rw [if_pos hp]
  · rw [if_neg hp]
    show st.1 ≤ (scanComplex inp c.2.toFinset c.1 ⟨st.1, st.2, 0⟩).highest
    rw [scanComplex_eq]
    exact stepEvent_fold_highest_le inp c.2.toFinset c.1 (events inp) ⟨st.1, st.2, 0⟩

set_option maxRecDepth 4000 in
theorem processComplex_highest_bound (inp : MatcherInput) (hM : 0 ≤ inp.maxThresh)
    (st : ℚ × List (Nat × List Nat)) (c : Nat × List Nat)
    (hst : st.1 ≤ inp.maxThresh) : (processComplex inp st c).1 ≤ inp.maxThresh := by
  unfold processComplex
  by_cases hp : presentCount inp c.2 < 2
  · rw [if_pos hp]; exact hst
  · rw [if_neg hp]
    show (scanComplex inp c.2.toFinset c.1 ⟨st.1, st.2, 0⟩).highest ≤ inp.maxThresh
    rw [scanComplex_eq]
    apply stepEvent_fold_highest_bound inp c.2.toFinset c.1 inp.maxThresh (events inp)
      _ _ hst
    intro e he
    exact linspace_le_max inp.maxThresh hM e.1 ((mem_events inp e).mp he).1

theorem runScan_highest_bound (inp : MatcherInput) (hM : 0 ≤ inp.maxThresh) :
    (runScan inp).1 ≤ inp.maxThresh := by
  unfold runScan
  have key : ∀ (l : List (Nat × List Nat)) (st : ℚ × List (Nat × List Nat)),
      st.1 ≤ inp.maxThresh → (l.foldl (processComplex inp) st).1 ≤ inp.maxThresh := by
    intro l
    induction l with
    | nil => intro st hst; exact hst
    | cons c l ih =>
      intro st hst
      rw [List.foldl_cons]
      exact ih _ (processComplex_highest_bound inp hM st c hst)
  exact key inp.complexes (0, []) hM

/-! ### Claims C4, C5, C8, C9 -/

/-- C4: `get_first_level_clusters` labels every one of the N items with a
positive label: an item marked in `gene_assignments` keeps that captured-complex
label, every other item gets the fallback label `max(gene_assignments) + 1 +
fcluster(link, highest_thresh + 0.1)[item]`, and a fallback label never
coincides with any captured-complex label appearing in the output; no item is
left unlabeled. -/
theorem c4_all_items_labeled (inp : MatcherInput) (j : Nat)
    (hj : j < inp.commonGenes.length) :
    (get_first_level_clusters inp).length = inp.commonGenes.length ∧
    1 ≤ (get_first_level_clusters inp).getD j 0 ∧
    ((buildGA inp.commonGenes.length (runScan inp).2).getD j 0 ≠ 0 →
      (get_first_level_clusters inp).getD j 0 =
        (buildGA inp.commonGenes.length (runScan inp).2).getD j 0) ∧
    ((buildGA inp.commonGenes.length (runScan inp).2).getD j 0 = 0 →
      (get_first_level_clusters inp).getD j 0 =
        (buildGA inp.commonGenes.length (runScan inp).2).foldr max 0 + 1 +
          (inp.cut ((runScan inp).1 + 1/10)).getD j 0) ∧
    (∀ j' : Nat, (buildGA inp.commonGenes.length (runScan inp).2).getD j' 0 ≠ 0 →
      (buildGA inp.commonGenes.length (runScan inp).2).getD j 0 = 0 →
      (get_first_level_clusters inp).getD j 0 ≠
        (buildGA inp.commonGenes.length (runScan inp).2).getD j' 0) := by
  have hout := get_first_level_clusters_getD inp j hj
  refine ⟨get_first_level_clusters_length inp, ?_, ?_, ?_, ?_⟩
  · rw [hout]
    by_cases h : (buildGA inp.commonGenes.length (runScan inp).2).getD j 0 ≠ 0
    · rw [if_pos h]; omega
    · rw [if_neg h]; omega
  · intro h
    rw [hout, if_pos h]
  · intro h
    rw [hout, if_neg (by omega)]
  · intro j' hj' hz
    rw [hout, if_neg (by omega)]
    have hle := getD_le_foldr_max (buildGA inp.commonGenes.length (runScan inp).2) j'
    omega

/-- C4 witness: item 0 of the two-item input `inpW2` enjoys all the labeling
guarantees. -/
theorem c4_all_items_labeled_witness :
    0 < inpW2.commonGenes.length ∧
    ((get_first_level_clusters inpW2).length = inpW2.commonGenes.length ∧
      1 ≤ (get_first_level_clusters inpW2).getD 0 0 ∧
      ((buildGA inpW2.commonGenes.length (runScan inpW2).2).getD 0 0 ≠ 0 →
        (get_first_level_clusters inpW2).getD 0 0 =
          (buildGA inpW2.commonGenes.length (runScan inpW2).2).getD 0 0) ∧
      ((buildGA inpW2.commonGenes.length (runScan inpW2).2).getD 0 0 = 0 →
        (get_first_level_clusters inpW2).getD 0 0 =
          (buildGA inpW2.commonGenes.length (runScan inpW2).2).foldr max 0 + 1 +
            (inpW2.cut ((runScan inpW2).1 + 1/10)).getD 0 0) ∧
      (∀ j' : Nat, (buildGA inpW2.commonGenes.length (runScan inpW2).2).getD j' 0 ≠ 0 →
        (buildGA inpW2.commonGenes.length (runScan inpW2).2).getD 0 0 = 0 →
        (get_first_level_clusters inpW2).getD 0 0 ≠
          (buildGA inpW2.commonGenes.length (runScan inpW2).2).getD j' 0)) :=
  ⟨by decide, c4_all_items_labeled inpW2 0 (by decide)⟩

/-- C5: throughout the scan the running `highest_thresh` is monotonically
non-decreasing (per event and per complex), it changes only on an event whose
cluster has at least 2 members, strictly improves `best_jaccard` and clears the
0.5 Jaccard gate (in which case it becomes that event threshold), and at the
end of the scan it never exceeds `max_threshold`. -/
theorem c5_highest_thresh_invariants (inp : MatcherInput) (hM : 0 ≤ inp.maxThresh) :
    (∀ (cg : Finset Nat) (cid : Nat) (st : MatchState) (e : ℚ × Nat),
      st.highest ≤ (stepEvent inp cg cid st e).highest) ∧
    (∀ (cg : Finset Nat) (cid : Nat) (st : MatchState) (e : ℚ × Nat),
      (stepEvent inp cg cid st e).highest ≠ st.highest →
      2 ≤ (clusterIdxs (inp.cut e.1) e.2).length ∧
      st.best < jaccardQ (clusterGenesOf inp (clusterIdxs (inp.cut e.1) e.2)) cg ∧
      (1 : ℚ)/2 ≤ jaccardQ (clusterGenesOf inp (clusterIdxs (inp.cut e.1) e.2)) cg ∧
      (stepEvent inp cg cid st e).highest = e.1 ∧ st.highest < e.1) ∧
    (∀ (st : ℚ × List (Nat × List Nat)) (c : Nat × List Nat),
      st.1 ≤ (processComplex inp st c).1) ∧
    (runScan inp).1 ≤ inp.maxThresh := by
  refine ⟨stepEvent_highest_le inp, ?_, processComplex_highest_le inp,
    runScan_highest_bound inp hM⟩
  intro cg cid st e hne
  rcases stepEvent_cases inp cg cid st e with h | h
  · exact absurd (by rw [h]) hne
  · by_cases hl : st.highest < e.1
    · refine ⟨h.2.1, h.2.2.1, h.2.2.2, ?_, hl⟩
      rw [h.1]
      simp only [if_pos hl]
    · exact absurd (by rw [h.1]; simp only [if_neg hl]) hne

/-- C5 witness: the invariants instantiated at the concrete input `inpW2`. -/
theorem c5_highest_thresh_invariants_witness :
    0 ≤ inpW2.maxThresh ∧
    ((∀ (cg : Finset Nat) (cid : Nat) (st : MatchState) (e : ℚ × Nat),
      st.highest ≤ (stepEvent inpW2 cg cid st e).highest) ∧
    (∀ (cg : Finset Nat) (cid : Nat) (st : MatchState) (e : ℚ × Nat),
      (stepEvent inpW2 cg cid st e).highest ≠ st.highest →
      2 ≤ (clusterIdxs (inpW2.cut e.1) e.2).length ∧
      st.best < jaccardQ (clusterGenesOf inpW2 (clusterIdxs (inpW2.cut e.1) e.2)) cg ∧
      (1 : ℚ)/2 ≤ jaccardQ (clusterGenesOf inpW2 (clusterIdxs (inpW2.cut e.1) e.2)) cg ∧
      (stepEvent inpW2 cg cid st e).highest = e.1 ∧ st.highest < e.1) ∧
    (∀ (st : ℚ × List (Nat × List Nat)) (c : Nat × List Nat),
      st.1 ≤ (processComplex inpW2 st c).1) ∧
    (runScan inpW2).1 ≤ inpW2.maxThresh) :=
  ⟨le_of_eq (rfl : (0 : ℚ) = inpW2.maxThresh),
    c5_highest_thresh_invariants inpW2 (le_of_eq (rfl : (0 : ℚ) = inpW2.maxThresh))⟩

/-- C8: whenever the Jaccard denominator (the size of the union of the
cluster gene set and the complex gene set) is zero, the Jaccard score is
defined to be 0, and that comparison leaves the scan state untouched: it
neither updates the best match nor captures the complex. -/
theorem c8_zero_denominator (inp : MatcherInput) (cg : Finset Nat) (cid : Nat)
    (st : MatchState) (e : ℚ × Nat)
    (h : (clusterGenesOf inp (clusterIdxs (inp.cut e.1) e.2) ∪ cg).card = 0) :
    jaccardQ (clusterGenesOf inp (clusterIdxs (inp.cut e.1) e.2)) cg = 0 ∧
    stepEvent inp cg cid st e = st := by
  have hj : jaccardQ (clusterGenesOf inp (clusterIdxs (inp.cut e.1) e.2)) cg = 0 := by
    unfold jaccardQ
    rw [if_pos h]
  refine ⟨hj, ?_⟩
  rcases stepEvent_cases inp cg cid st e with hc | hc
  · exact hc
  · exfalso
    have := hc.2.2.2
    rw [hj] at this
    norm_num at this

/-- C8 witness: with the empty cut the union is empty, the score is 0 and the
state is unchanged. -/
theorem c8_zero_denominator_witness :
    (clusterGenesOf inpW8 (clusterIdxs (inpW8.cut 0) 0) ∪ (∅ : Finset Nat)).card = 0 ∧
    (jaccardQ (clusterGenesOf inpW8 (clusterIdxs (inpW8.cut 0) 0)) ∅ = 0 ∧
      stepEvent inpW8 ∅ 3 ⟨0, [], 0⟩ ((0 : ℚ), 0) = ⟨0, [], 0⟩) :=
  ⟨by decide, c8_zero_denominator inpW8 ∅ 3 ⟨0, [], 0⟩ ((0 : ℚ), 0) (by decide)⟩

/-- C9: `get_first_level_clusters` is deterministic: two runs on inputs with
identical linkage data (`maxThresh` and `cut`), item set and complexes mapping
produce identical output label arrays. -/
theorem c9_deterministic (inp1 inp2 : MatcherInput)
    (h1 : inp1.commonGenes = inp2.commonGenes) (h2 : inp1.maxThresh = inp2.maxThresh)
    (h3 : inp1.cut = inp2.cut) (h4 : inp1.complexes = inp2.complexes) :
    get_first_level_clusters inp1 = get_first_level_clusters inp2 := by
  cases inp1
  cases inp2
  simp only at h1 h2 h3 h4
  subst h1
  subst h2
  subst h3
  subst h4
  rfl

/-- C9 witness: re-running on the same input gives the same labels. -/
theorem c9_deterministic_witness :
    inpW2.commonGenes = inpW2.commonGenes ∧ inpW2.maxThresh = inpW2.maxThresh ∧
    inpW2.cut = inpW2.cut ∧ inpW2.complexes = inpW2.complexes ∧
    get_first_level_clusters inpW2 = get_first_level_clusters inpW2 :=
  ⟨rfl, rfl, rfl, rfl, c9_deterministic inpW2 inpW2 rfl rfl rfl rfl⟩

end Bionic

namespace Bionic

theorem foldr_max_replicate_zero : ∀ n : Nat, (List.replicate n 0).foldr max 0 = 0 := by
  intro n
  induction n with
  | zero => rfl
  | succ k ih =>
    rw [List.replicate_succ, List.foldr_cons, ih]
    simp

/-- C10: if no complex is captured (`assignments` is empty at the end of the
scan), then `highest_thresh` is still 0 and the maximum of the all-zero
`gene_assignments` is 0, so the output array is exactly
`fcluster(link, 0 + 0.1) + 1`, elementwise. -/
theorem c10_all_fallback_when_no_capture (inp : MatcherInput)
    (hnd : (inp.complexes.map Prod.fst).Nodup)
    (hempty : (runScan inp).2 = []) :
    get_first_level_clusters inp =
      (List.range inp.commonGenes.length).map
        (fun j => (inp.cut ((1 : ℚ)/10)).getD j 0 + 1) := by
  rcases runScan_char inp hnd with ⟨h', hchar⟩
  have hfm : inp.complexes.filterMap (contribution inp) = [] := by
    rw [hchar] at hempty
    exact hempty
  have hnone : ∀ c ∈ inp.complexes, contribution inp c = none :=
    List.filterMap_eq_nil_iff.mp hfm
  have hrun : runScan inp = (0, []) := by
    unfold runScan
    exact foldl_processComplex_none inp inp.complexes 0 [] (by simp) hnone
  unfold get_first_level_clusters
  rw [hrun]
  simp only [buildGA, buildGAFrom, foldr_max_replicate_zero]
  apply List.map_congr_left
  intro j hj
  rw [getD_replicate, if_pos (List.mem_range.mp hj)]
  simp
  omega

/-- C10 witness: with no complexes at all, nothing is captured and the output
is the 0.1-cut labels plus one. -/
theorem c10_all_fallback_when_no_capture_witness :
    (inpW10.complexes.map Prod.fst).Nodup ∧ (runScan inpW10).2 = [] ∧
    get_first_level_clusters inpW10 =
      (List.range inpW10.commonGenes.length).map
        (fun j => (inpW10.cut ((1 : ℚ)/10)).getD j 0 + 1) :=
  ⟨by decide, rfl, c10_all_fallback_when_no_capture inpW10 (by decide) rfl⟩

/-! ### Claim C1 -/

theorem keys_filterMap_sublist (inp : MatcherInput) (l : List (Nat × List Nat)) :
    ((l.filterMap (contribution inp)).map Prod.fst).Sublist (l.map Prod.fst) := by
  induction l with
  | nil => simp
  | cons c l ih =>
    rw [List.filterMap_cons]
    cases hc : contribution inp c with
    | none =>
      rw [List.map_cons]
      exact ih.trans (List.sublist_cons_self _ _)
    | some p =>
      rw [List.map_cons, List.map_cons, contribution_key inp c p hc]
      exact List.cons_sublist_cons.mpr ih

theorem bestMatch_ne_none_iff (inp : MatcherInput) (cg : Finset Nat) :
    bestMatch inp cg ≠ none ↔ ∃ e ∈ events inp, eligB inp cg e = true := by
  rw [Ne, bestMatch_none_iff]
  push_neg
  constructor
  · rintro ⟨e, he, hne⟩
    exact ⟨e, he, by simpa using hne⟩
  · rintro ⟨e, he, h⟩
    exact ⟨e, he, by simp [h]⟩

/-- C1: a reference complex is captured by `get_first_level_clusters` (appears
in the `assignments` mapping, whose keys are distinct so that each captured
complex gets the unique positive label `position + 1` in capture order) if and
only if at least 2 of its genes are present in the item set and some scanned
threshold yields some cluster with at least 2 members whose Jaccard similarity
with the complex gene set is at least 0.5; in particular a complex with fewer
than 2 genes present is never captured. -/
theorem c1_captured_iff (inp : MatcherInput) (cid : Nat) (genes : List Nat)
    (hnd : (inp.complexes.map Prod.fst).Nodup)
    (hmem : (cid, genes) ∈ inp.complexes) :
    (cid ∈ (runScan inp).2.map Prod.fst ↔
      2 ≤ presentCount inp genes ∧
        ∃ t ∈ linspace inp.maxThresh, ∃ lab ∈ uniqueLabels (inp.cut t),
          2 ≤ (clusterIdxs (inp.cut t) lab).length ∧
          (1 : ℚ)/2 ≤ jaccardQ (clusterGenesOf inp (clusterIdxs (inp.cut t) lab))
            genes.toFinset) ∧
    ((runScan inp).2.map Prod.fst).Nodup := by
  rcases runScan_char inp hnd with ⟨h', hchar⟩
  have h2 : (runScan inp).2 = inp.complexes.filterMap (contribution inp) := by
    rw [hchar]
  rw [h2]
  constructor
  · constructor
    · intro hin
      rcases List.mem_map.mp hin with ⟨pr, hpr, hfst⟩
      rcases List.mem_filterMap.mp hpr with ⟨c, hcmem, hcontr⟩
      have hc1 : c.1 = cid := by rw [← contribution_key inp c pr hcontr, hfst]
      have hcmem2 : (cid, c.2) ∈ inp.complexes := by rw [← hc1]; exact hcmem
      have hc2 : c.2 = genes :=
        nodup_keys_entry_unique inp.complexes cid c.2 genes hnd hcmem2 hmem
      unfold contribution at hcontr
      by_cases hp : presentCount inp c.2 < 2
      · rw [if_pos hp] at hcontr
        cases hcontr
      · rw [if_neg hp] at hcontr
        have hbm : bestMatch inp c.2.toFinset ≠ none := by
          intro hn
          rw [hn] at hcontr
          cases hcontr
        rw [hc2] at hp hbm
        refine ⟨le_of_not_lt hp, ?_⟩
        rcases (bestMatch_ne_none_iff inp genes.toFinset).mp hbm with ⟨e, he, helig⟩
        rcases (mem_events inp e).mp he with ⟨ht, hlab⟩
        rcases (eligB_true_iff inp genes.toFinset e).mp helig with ⟨hlen, hhalf⟩
        exact ⟨e.1, ht, e.2, hlab, hlen, hhalf⟩
    · rintro ⟨hp, t, ht, lab, hlab, hlen, hhalf⟩
      have helig : eligB inp genes.toFinset (t, lab) = true :=
        (eligB_true_iff _ _ _).mpr ⟨hlen, hhalf⟩
      have he : (t, lab) ∈ events inp := (mem_events inp (t, lab)).mpr ⟨ht, hlab⟩
      have hbm : bestMatch inp genes.toFinset ≠ none :=
        (bestMatch_ne_none_iff _ _).mpr ⟨(t, lab), he, helig⟩
      cases hbmv : bestMatch inp genes.toFinset with
      | none => exact absurd hbmv hbm
      | some M =>
        apply List.mem_map.mpr
        refine ⟨(cid, M), ?_, rfl⟩
        apply List.mem_filterMap.mpr
        refine ⟨(cid, genes), hmem, ?_⟩
        unfold contribution
        rw [if_neg (not_lt.mpr hp), hbmv]
        rfl
  · exact (keys_filterMap_sublist inp inp.complexes).nodup hnd

/-- C1 witness: the capture criterion instantiated at `inpW2` and its unique
complex. -/
theorem c1_captured_iff_witness :
    ((inpW2.complexes.map Prod.fst).Nodup ∧ (7, [0, 1]) ∈ inpW2.complexes) ∧
    ((7 ∈ (runScan inpW2).2.map Prod.fst ↔
      2 ≤ presentCount inpW2 [0, 1] ∧
        ∃ t ∈ linspace inpW2.maxThresh, ∃ lab ∈ uniqueLabels (inpW2.cut t),
          2 ≤ (clusterIdxs (inpW2.cut t) lab).length ∧
          (1 : ℚ)/2 ≤ jaccardQ (clusterGenesOf inpW2 (clusterIdxs (inpW2.cut t) lab))
            ([0, 1] : List Nat).toFinset) ∧
    ((runScan inpW2).2.map Prod.fst).Nodup) :=
  ⟨⟨by decide, by decide⟩, c1_captured_iff inpW2 7 [0, 1] (by decide) (by decide)⟩

end Bionic

namespace Bionic

theorem contribution_congr (inp1 inp2 : MatcherInput)
    (hg : inp1.commonGenes = inp2.commonGenes) (hm : inp1.maxThresh = inp2.maxThresh)
    (hc : inp1.cut = inp2.cut) : contribution inp1 = contribution inp2 := by
  cases inp1
  cases inp2
  simp only at hg hm hc
  subst hg
  subst hm
  subst hc
  rfl

/-- C6: which item indices get captured (a nonzero entry of
`gene_assignments` before the fallback merge) does not depend on the iteration
order of the complexes mapping — each complex captures on its own — while the
numeric label of an index is decided by position in capture order, the
last-processed captured complex that recorded the index winning. -/
theorem c6_capture_set_order_independent (inp1 inp2 : MatcherInput)
    (hg : inp1.commonGenes = inp2.commonGenes) (hm : inp1.maxThresh = inp2.maxThresh)
    (hc : inp1.cut = inp2.cut) (hperm : inp1.complexes.Perm inp2.complexes)
    (hnd : (inp1.complexes.map Prod.fst).Nodup) :
    (∀ j : Nat,
      (buildGA inp1.commonGenes.length (runScan inp1).2).getD j 0 ≠ 0 ↔
      (buildGA inp2.commonGenes.length (runScan inp2).2).getD j 0 ≠ 0) ∧
    (∀ (pre : List (Nat × List Nat)) (p : Nat × List Nat)
      (suf : List (Nat × List Nat)) (j : Nat),
      (runScan inp1).2 = pre ++ p :: suf → j ∈ p.2 → (∀ q ∈ suf, j ∉ q.2) →
      j < inp1.commonGenes.length →
      (buildGA inp1.commonGenes.length (runScan inp1).2).getD j 0 = pre.length + 1) := by
  have hnd2 : (inp2.complexes.map Prod.fst).Nodup :=
    ((hperm.map Prod.fst).nodup_iff).mp hnd
  rcases runScan_char inp1 hnd with ⟨h1, hchar1⟩
  rcases runScan_char inp2 hnd2 with ⟨h2, hchar2⟩
  have e1 : (runScan inp1).2 = inp1.complexes.filterMap (contribution inp1) := by
    rw [hchar1]
  have e2 : (runScan inp2).2 = inp2.complexes.filterMap (contribution inp2) := by
    rw [hchar2]
  constructor
  · intro j
    by_cases hjn : j < inp1.commonGenes.length
    · have hjn2 : j < inp2.commonGenes.length := hg ▸ hjn
      rw [buildGA_getD_nonzero_iff _ _ j hjn, buildGA_getD_nonzero_iff _ _ j hjn2,
        e1, e2, ← contribution_congr inp1 inp2 hg hm hc]
      have hpf : (inp1.complexes.filterMap (contribution inp1)).Perm
          (inp2.complexes.filterMap (contribution inp1)) :=
        hperm.filterMap (contribution inp1)
      constructor
      · rintro ⟨p, hp, hjp⟩
        exact ⟨p, hpf.mem_iff.mp hp, hjp⟩
      · rintro ⟨p, hp, hjp⟩
        exact ⟨p, hpf.mem_iff.mpr hp, hjp⟩
    · rw [buildGA_getD_oob _ _ j (le_of_not_lt hjn),
        buildGA_getD_oob _ _ j (le_of_not_lt (hg ▸ hjn))]
  · intro pre p suf j heq hjp hsuf hjn
    rw [heq]
    exact buildGA_lastwins _ pre p suf j hjn hjp hsuf

/-- C6 witness: `inpC3` and its order-reversed variant `inpC3r`. -/
theorem c6_capture_set_order_independent_witness :
    (inpC3.commonGenes = inpC3r.commonGenes ∧ inpC3.maxThresh = inpC3r.maxThresh ∧
      inpC3.cut = inpC3r.cut ∧ inpC3.complexes.Perm inpC3r.complexes ∧
      (inpC3.complexes.map Prod.fst).Nodup) ∧
    ((∀ j : Nat,
      (buildGA inpC3.commonGenes.length (runScan inpC3).2).getD j 0 ≠ 0 ↔
      (buildGA inpC3r.commonGenes.length (runScan inpC3r).2).getD j 0 ≠ 0) ∧
    (∀ (pre : List (Nat × List Nat)) (p : Nat × List Nat)
      (suf : List (Nat × List Nat)) (j : Nat),
      (runScan inpC3).2 = pre ++ p :: suf → j ∈ p.2 → (∀ q ∈ suf, j ∉ q.2) →
      j < inpC3.commonGenes.length →
      (buildGA inpC3.commonGenes.length (runScan inpC3).2).getD j 0 = pre.length + 1)) :=
  ⟨⟨rfl, rfl, rfl, by decide, by decide⟩,
    c6_capture_set_order_independent inpC3 inpC3r rfl rfl rfl (by decide) (by decide)⟩

end Bionic

namespace Bionic

/-- C2: the index set finally recorded in `assignments` for a captured complex
is the member set of a cluster found at the smallest scanned threshold that
achieves the complex eventual best Jaccard score: the recording event scores at
least as much as every capture-eligible event of the scan, and every scanned
threshold carrying a cluster (with at least 2 members) of that same score is at
least the recording threshold — a tie at a higher threshold never overwrites
the recorded match, because thresholds are scanned ascending and updates
require strict improvement. -/
theorem c2_recorded_match_minimal_threshold (inp : MatcherInput) (cid : Nat)
    (genes M : List Nat)
    (hnd : (inp.complexes.map Prod.fst).Nodup)
    (hmem : (cid, genes) ∈ inp.complexes)
    (hM : 0 ≤ inp.maxThresh)
    (hrec : (cid, M) ∈ (runScan inp).2) :
    ∃ t0 ∈ linspace inp.maxThresh, ∃ lab ∈ uniqueLabels (inp.cut t0),
      M = clusterIdxs (inp.cut t0) lab ∧
      2 ≤ (clusterIdxs (inp.cut t0) lab).length ∧
      (1 : ℚ)/2 ≤ scoreOf inp genes.toFinset (t0, lab) ∧
      (∀ e ∈ events inp, eligB inp genes.toFinset e = true →
        scoreOf inp genes.toFinset e ≤ scoreOf inp genes.toFinset (t0, lab)) ∧
      (∀ t ∈ linspace inp.maxThresh, ∀ lab2 ∈ uniqueLabels (inp.cut t),
        2 ≤ (clusterIdxs (inp.cut t) lab2).length →
        scoreOf inp genes.toFinset (t, lab2) = scoreOf inp genes.toFinset (t0, lab) →
        t0 ≤ t) := by
  -- the recorded entry comes from this complex own `bestMatch`
  rcases runScan_char inp hnd with ⟨h', hchar⟩
  have h2 : (runScan inp).2 = inp.complexes.filterMap (contribution inp) := by
    rw [hchar]
  rw [h2] at hrec
  rcases List.mem_filterMap.mp hrec with ⟨c, hcmem, hcontr⟩
  have hc1 : c.1 = cid := by
    have := contribution_key inp c (cid, M) hcontr
    exact this.symm
  have hcmem2 : (cid, c.2) ∈ inp.complexes := by rw [← hc1]; exact hcmem
  have hc2 : c.2 = genes :=
    nodup_keys_entry_unique inp.complexes cid c.2 genes hnd hcmem2 hmem
  have hbm : bestMatch inp genes.toFinset = some M := by
    unfold contribution at hcontr
    by_cases hp : presentCount inp c.2 < 2
    · rw [if_pos hp] at hcontr
      cases hcontr
    · rw [if_neg hp] at hcontr
      cases hbmv : bestMatch inp c.2.toFinset with
      | none =>
        rw [hbmv] at hcontr
        cases hcontr
      | some M2 =>
        rw [hbmv] at hcontr
        rw [show Option.map (fun M => (c.1, M)) (some M2) = some (c.1, M2) from rfl]
          at hcontr
        have hM2 : M2 = M := congrArg Prod.snd (Option.some.inj hcontr)
        rw [← hc2, hbmv, hM2]
  -- analyse the per-complex fold
  unfold bestMatch at hbm
  rcases bestStep_fold_spec inp genes.toFinset (events inp) (0, none) with
    ⟨hfix, _⟩ | ⟨pre, ev, suf, hE, helig, hgt, h1, hsnd, hall, hpre⟩
  · rw [hfix] at hbm
    cases hbm
  · have hevmem : ev ∈ events inp := by
      rw [hE]
      exact List.mem_append_right pre (List.mem_cons_self ev suf)
    rcases (mem_events inp ev).mp hevmem with ⟨ht0, hlab0⟩
    rcases (eligB_true_iff inp genes.toFinset ev).mp helig with ⟨hlen0, hhalf0⟩
    have hMc : M = clusterIdxs (inp.cut ev.1) ev.2 := by
      rw [hbm] at hsnd
      exact Option.some.inj hsnd
    refine ⟨ev.1, ht0, ev.2, hlab0, hMc, hlen0, hhalf0, ?_, ?_⟩
    · intro e he helige
      have := hall e he helige
      rw [h1] at this
      exact this
    · intro t ht lab2 hlab2 hlen2 hscore
      have hememv : (t, lab2) ∈ events inp := (mem_events inp (t, lab2)).mpr ⟨ht, hlab2⟩
      have helig2 : eligB inp genes.toFinset (t, lab2) = true := by
        apply (eligB_true_iff inp genes.toFinset (t, lab2)).mpr
        refine ⟨hlen2, ?_⟩
        rw [hscore]
        exact hhalf0
      rw [hE] at hememv
      rcases List.mem_append.mp hememv with hin | hin
      · exfalso
        have := hpre (t, lab2) hin helig2
        rw [h1] at this
        rw [hscore] at this
        exact lt_irrefl _ this
      · rcases List.mem_cons.mp hin with heq | hin
        · have : t = ev.1 := congrArg Prod.fst heq
          rw [this]
        · have hsorted := events_pairwise_fst inp hM
          rw [hE, List.pairwise_append] at hsorted
          have hcons := hsorted.2.1
          rw [List.pairwise_cons] at hcons
          exact hcons.1 (t, lab2) hin

end Bionic

namespace Bionic

/-! ### Evaluating the scan on the concrete inputs (all thresholds are 0) -/

theorem scanComplex_zero_fix (inp : MatcherInput) (hM : inp.maxThresh = 0)
    (cg : Finset Nat) (cid : Nat) (st : MatchState)
    (hfix : scanThresh inp cg cid (scanThresh inp cg cid st 0) 0 =
      scanThresh inp cg cid st 0) :
    scanComplex inp cg cid st = scanThresh inp cg cid st 0 := by
  unfold scanComplex
  rw [hM, linspace_zero, show (1000 : ℕ) = 999 + 1 from rfl, List.replicate_succ,
    List.foldl_cons]
  exact foldl_replicate_fix (scanThresh inp cg cid) 0 999 _ hfix

theorem w2_jaccard :
    jaccardQ (clusterGenesOf inpW2 [0, 1]) (([0, 1] : List Nat).toFinset) = 1 := by
  have h1 : (clusterGenesOf inpW2 [0, 1] ∪ ([0, 1] : List Nat).toFinset).card = 2 := by
    decide
  have h2 : (clusterGenesOf inpW2 [0, 1] ∩ ([0, 1] : List Nat).toFinset).card = 2 := by
    decide
  unfold jaccardQ
  rw [h1, h2]
  norm_num

theorem w2_step0 :
    stepEvent inpW2 (([0, 1] : List Nat).toFinset) 7 ⟨0, [], 0⟩ ((0 : ℚ), 1) =
      ⟨0, [(7, [0, 1])], 1⟩ := by
  have hcl : clusterIdxs (inpW2.cut 0) 1 = [0, 1] := by decide
  have hupd : updateAssoc [] 7 [0, 1] = [(7, [0, 1])] := by decide
  simp only [stepEvent, hcl, w2_jaccard, hupd]
  norm_num

theorem w2_step1 :
    stepEvent inpW2 (([0, 1] : List Nat).toFinset) 7 ⟨0, [(7, [0, 1])], 1⟩ ((0 : ℚ), 1) =
      ⟨0, [(7, [0, 1])], 1⟩ := by
  have hcl : clusterIdxs (inpW2.cut 0) 1 = [0, 1] := by decide
  simp only [stepEvent, hcl, w2_jaccard]
  norm_num

theorem w2_scanThresh0 :
    scanThresh inpW2 (([0, 1] : List Nat).toFinset) 7 ⟨0, [], 0⟩ 0 =
      ⟨0, [(7, [0, 1])], 1⟩ := by
  unfold scanThresh
  have hul : uniqueLabels (inpW2.cut 0) = [1] := by decide
  rw [hul, List.foldl_cons, List.foldl_nil, w2_step0]

theorem w2_scanThresh1 :
    scanThresh inpW2 (([0, 1] : List Nat).toFinset) 7 ⟨0, [(7, [0, 1])], 1⟩ 0 =
      ⟨0, [(7, [0, 1])], 1⟩ := by
  unfold scanThresh
  have hul : uniqueLabels (inpW2.cut 0) = [1] := by decide
  rw [hul, List.foldl_cons, List.foldl_nil, w2_step1]

theorem w2_runScan : runScan inpW2 = (0, [(7, [0, 1])]) := by
  unfold runScan
  show List.foldl (processComplex inpW2) (0, []) [(7, [0, 1])] = (0, [(7, [0, 1])])
  rw [List.foldl_cons, List.foldl_nil]
  unfold processComplex
  rw [if_neg (by decide : ¬presentCount inpW2 ((7 : Nat), [0, 1]).2 < 2)]
  have hsc : scanComplex inpW2 (([0, 1] : List Nat).toFinset) 7 ⟨0, [], 0⟩ =
      ⟨0, [(7, [0, 1])], 1⟩ := by
    rw [scanComplex_zero_fix inpW2 rfl _ 7 _ (by rw [w2_scanThresh0, w2_scanThresh1]),
      w2_scanThresh0]
  show (let r := scanComplex inpW2 (([0, 1] : List Nat).toFinset) 7 ⟨0, [], 0⟩
    ((r.highest, r.assignments) : ℚ × List (Nat × List Nat))) = (0, [(7, [0, 1])])
  rw [hsc]

end Bionic

namespace Bionic

/-- C2 witness: at `inpW2`, complex 7 is captured with recorded match `[0, 1]`
and the minimal-threshold property holds. -/
theorem c2_recorded_match_minimal_threshold_witness :
    ((inpW2.complexes.map Prod.fst).Nodup ∧ (7, [0, 1]) ∈ inpW2.complexes ∧
      0 ≤ inpW2.maxThresh ∧ ((7 : Nat), ([0, 1] : List Nat)) ∈ (runScan inpW2).2) ∧
    (∃ t0 ∈ linspace inpW2.maxThresh, ∃ lab ∈ uniqueLabels (inpW2.cut t0),
      ([0, 1] : List Nat) = clusterIdxs (inpW2.cut t0) lab ∧
      2 ≤ (clusterIdxs (inpW2.cut t0) lab).length ∧
      (1 : ℚ)/2 ≤ scoreOf inpW2 (([0, 1] : List Nat).toFinset) (t0, lab) ∧
      (∀ e ∈ events inpW2, eligB inpW2 (([0, 1] : List Nat).toFinset) e = true →
        scoreOf inpW2 (([0, 1] : List Nat).toFinset) e ≤
          scoreOf inpW2 (([0, 1] : List Nat).toFinset) (t0, lab)) ∧
      (∀ t ∈ linspace inpW2.maxThresh, ∀ lab2 ∈ uniqueLabels (inpW2.cut t),
        2 ≤ (clusterIdxs (inpW2.cut t) lab2).length →
        scoreOf inpW2 (([0, 1] : List Nat).toFinset) (t, lab2) =
          scoreOf inpW2 (([0, 1] : List Nat).toFinset) (t0, lab) →
        t0 ≤ t)) :=
  ⟨⟨by decide, by decide, le_of_eq (rfl : (0 : ℚ) = inpW2.maxThresh),
      by rw [w2_runScan]; exact List.mem_singleton.mpr rfl⟩,
    c2_recorded_match_minimal_threshold inpW2 7 [0, 1] [0, 1] (by decide) (by decide)
      (le_of_eq (rfl : (0 : ℚ) = inpW2.maxThresh))
      (by rw [w2_runScan]; exact List.mem_singleton.mpr rfl)⟩

/-! ### Evaluating the scan on `inpC3` -/

theorem c3_jaccardY :
    jaccardQ (clusterGenesOf inpC3 [0, 1, 2, 3, 4, 5])
      (([0, 1, 2, 3, 4] : List Nat).toFinset) = 5/6 := by
  have h1 : (clusterGenesOf inpC3 [0, 1, 2, 3, 4, 5] ∪
      ([0, 1, 2, 3, 4] : List Nat).toFinset).card = 6 := by decide
  have h2 : (clusterGenesOf inpC3 [0, 1, 2, 3, 4, 5] ∩
      ([0, 1, 2, 3, 4] : List Nat).toFinset).card = 5 := by decide
  unfold jaccardQ
  rw [h1, h2]
  norm_num

theorem c3_jaccardX :
    jaccardQ (clusterGenesOf inpC3 [0, 1, 2, 3, 4, 5])
      (([0, 5] : List Nat).toFinset) = 1/3 := by
  have h1 : (clusterGenesOf inpC3 [0, 1, 2, 3, 4, 5] ∪
      ([0, 5] : List Nat).toFinset).card = 6 := by decide
  have h2 : (clusterGenesOf inpC3 [0, 1, 2, 3, 4, 5] ∩
      ([0, 5] : List Nat).toFinset).card = 2 := by decide
  unfold jaccardQ
  rw [h1, h2]
  norm_num

theorem c3_stepY0 :
    stepEvent inpC3 (([0, 1, 2, 3, 4] : List Nat).toFinset) 10 ⟨0, [], 0⟩ ((0 : ℚ), 1) =
      ⟨0, [(10, [0, 1, 2, 3, 4, 5])], 5/6⟩ := by
  have hcl : clusterIdxs (inpC3.cut 0) 1 = [0, 1, 2, 3, 4, 5] := by decide
  have hupd : updateAssoc [] 10 [0, 1, 2, 3, 4, 5] = [(10, [0, 1, 2, 3, 4, 5])] := by
    decide
  simp only [stepEvent, hcl, c3_jaccardY, hupd]
  norm_num

theorem c3_stepY1 :
    stepEvent inpC3 (([0, 1, 2, 3, 4] : List Nat).toFinset) 10
      ⟨0, [(10, [0, 1, 2, 3, 4, 5])], 5/6⟩ ((0 : ℚ), 1) =
      ⟨0, [(10, [0, 1, 2, 3, 4, 5])], 5/6⟩ := by
  have hcl : clusterIdxs (inpC3.cut 0) 1 = [0, 1, 2, 3, 4, 5] := by decide
  simp only [stepEvent, hcl, c3_jaccardY]
  norm_num

theorem c3_stepX :
    stepEvent inpC3 (([0, 5] : List Nat).toFinset) 20
      ⟨0, [(10, [0, 1, 2, 3, 4, 5])], 0⟩ ((0 : ℚ), 1) =
      ⟨0, [(10, [0, 1, 2, 3, 4, 5])], 0⟩ := by
  have hcl : clusterIdxs (inpC3.cut 0) 1 = [0, 1, 2, 3, 4, 5] := by decide
  simp only [stepEvent, hcl, c3_jaccardX]
  norm_num

theorem c3_scanThreshY0 :
    scanThresh inpC3 (([0, 1, 2, 3, 4] : List Nat).toFinset) 10 ⟨0, [], 0⟩ 0 =
      ⟨0, [(10, [0, 1, 2, 3, 4, 5])], 5/6⟩ := by
  unfold scanThresh
  have hul : uniqueLabels (inpC3.cut 0) = [1] := by decide
  rw [hul, List.foldl_cons, List.foldl_nil, c3_stepY0]

theorem c3_scanThreshY1 :
    scanThresh inpC3 (([0, 1, 2, 3, 4] : List Nat).toFinset) 10
      ⟨0, [(10, [0, 1, 2, 3, 4, 5])], 5/6⟩ 0 =
      ⟨0, [(10, [0, 1, 2, 3, 4, 5])], 5/6⟩ := by
  unfold scanThresh
  have hul : uniqueLabels (inpC3.cut 0) = [1] := by decide
  rw [hul, List.foldl_cons, List.foldl_nil, c3_stepY1]

theorem c3_scanThreshX :
    scanThresh inpC3 (([0, 5] : List Nat).toFinset) 20
      ⟨0, [(10, [0, 1, 2, 3, 4, 5])], 0⟩ 0 =
      ⟨0, [(10, [0, 1, 2, 3, 4, 5])], 0⟩ := by
  unfold scanThresh
  have hul : uniqueLabels (inpC3.cut 0) = [1] := by decide
  rw [hul, List.foldl_cons, List.foldl_nil, c3_stepX]

theorem c3_runScan : runScan inpC3 = (0, [(10, [0, 1, 2, 3, 4, 5])]) := by
  unfold runScan
  show List.foldl (processComplex inpC3) (0, [])
    [(10, [0, 1, 2, 3, 4]), (20, [0, 5])] = (0, [(10, [0, 1, 2, 3, 4, 5])])
  rw [List.foldl_cons]
  have hY : processComplex inpC3 (0, []) (10, [0, 1, 2, 3, 4]) =
      (0, [(10, [0, 1, 2, 3, 4, 5])]) := by
    unfold processComplex
    rw [if_neg (by decide : ¬presentCount inpC3 ((10 : Nat), [0, 1, 2, 3, 4]).2 < 2)]
    have hsc : scanComplex inpC3 (([0, 1, 2, 3, 4] : List Nat).toFinset) 10 ⟨0, [], 0⟩ =
        ⟨0, [(10, [0, 1, 2, 3, 4, 5])], 5/6⟩ := by
      rw [scanComplex_zero_fix inpC3 rfl _ 10 _
        (by rw [c3_scanThreshY0, c3_scanThreshY1]), c3_scanThreshY0]
    show (let r := scanComplex inpC3 (([0, 1, 2, 3, 4] : List Nat).toFinset) 10 ⟨0, [], 0⟩
      ((r.highest, r.assignments) : ℚ × List (Nat × List Nat))) =
        (0, [(10, [0, 1, 2, 3, 4, 5])])
    rw [hsc]
  rw [hY, List.foldl_cons, List.foldl_nil]
  unfold processComplex
  rw [if_neg (by decide : ¬presentCount inpC3 ((20 : Nat), [0, 5]).2 < 2)]
  have hsc : scanComplex inpC3 (([0, 5] : List Nat).toFinset) 20
      ⟨0, [(10, [0, 1, 2, 3, 4, 5])], 0⟩ = ⟨0, [(10, [0, 1, 2, 3, 4, 5])], 0⟩ := by
    rw [scanComplex_zero_fix inpC3 rfl _ 20 _ (by rw [c3_scanThreshX, c3_scanThreshX]),
      c3_scanThreshX]
  show (let r := scanComplex inpC3 (([0, 5] : List Nat).toFinset) 20 (⟨0, [(10, [0, 1, 2, 3, 4, 5])], 0⟩ : MatchState); ((r.highest, r.assignments) : ℚ × List (Nat × List Nat))) = (0, [(10, [0, 1, 2, 3, 4, 5])])
  rw [hsc]

/-- Complex 20 of `inpC3` fails the 0.5 Jaccard gate at every scanned
threshold: the only cluster with at least 2 members (at every threshold) scores
1/3 against it. -/
theorem c3_gate_fails :
    ∀ t ∈ linspace inpC3.maxThresh, ∀ lab ∈ uniqueLabels (inpC3.cut t),
      2 ≤ (clusterIdxs (inpC3.cut t) lab).length →
      jaccardQ (clusterGenesOf inpC3 (clusterIdxs (inpC3.cut t) lab))
        (([0, 5] : List Nat).toFinset) < 1/2 := by
  intro t _ lab hlab _
  have hult : uniqueLabels (inpC3.cut t) = [1] := rfl
  rw [hult] at hlab
  have hlab1 : lab = 1 := List.mem_singleton.mp hlab
  subst hlab1
  have hcl : clusterIdxs (inpC3.cut t) 1 = [0, 1, 2, 3, 4, 5] := rfl
  rw [hcl, c3_jaccardX]
  norm_num

end Bionic

namespace Bionic

/-- C3 counterexample: complex 20 of `inpC3` has 2 genes present and no
cluster with at least 2 members reaching Jaccard 0.5 at any scanned threshold,
yet its gene `5` (item index 5) receives the captured-complex label 1 — the
label of captured complex 10, whose recorded cluster contains index 5 — in
both `gene_assignments` and the final output, instead of falling into the
fallback partition.  This refutes the claim that no gene of a gate-failing
complex ever receives a captured-complex label. -/
theorem c3_counterexample :
    (20, [0, 5]) ∈ inpC3.complexes ∧
    2 ≤ presentCount inpC3 [0, 5] ∧
    (∀ t ∈ linspace inpC3.maxThresh, ∀ lab ∈ uniqueLabels (inpC3.cut t),
      2 ≤ (clusterIdxs (inpC3.cut t) lab).length →
      jaccardQ (clusterGenesOf inpC3 (clusterIdxs (inpC3.cut t) lab))
        (([0, 5] : List Nat).toFinset) < 1/2) ∧
    inpC3.commonGenes.getD 5 0 = 5 ∧ (5 : Nat) ∈ ([0, 5] : List Nat) ∧
    (runScan inpC3).2 = [(10, [0, 1, 2, 3, 4, 5])] ∧
    (buildGA inpC3.commonGenes.length (runScan inpC3).2).getD 5 0 = 1 ∧
    (get_first_level_clusters inpC3).getD 5 0 = 1 := by
  refine ⟨by decide, by decide, c3_gate_fails, by decide, by decide, ?_, ?_, ?_⟩
  · rw [c3_runScan]
  · rw [c3_runScan]
    decide
  · have h5 := get_first_level_clusters_getD inpC3 5 (by decide)
    rw [c3_runScan] at h5
    have hga : (buildGA inpC3.commonGenes.length
        (((0 : ℚ), [((10 : Nat), [0, 1, 2, 3, 4, 5])]) :
          ℚ × List (Nat × List Nat)).2).getD 5 0 = 1 := by decide
    rw [h5, hga]
    norm_num

/-- C3 (amended): for every complex for which no cluster with at least 2
members reaches Jaccard 0.5 at any scanned threshold, the complex itself is
never captured (it does not appear in `assignments`), so none of its genes
receive a label on its behalf; an item falls into the fallback partition
(receiving label `max(gene_assignments) + 1 + fcluster(link, highest + 0.1)`)
precisely when its index lies in no captured complex recorded cluster —
however a gene of the gate-failing complex may still receive another captured
complex label when that complex recorded cluster contains its index. -/
theorem c3_amended_gate_failure (inp : MatcherInput) (cid : Nat) (genes : List Nat)
    (hnd : (inp.complexes.map Prod.fst).Nodup)
    (hmem : (cid, genes) ∈ inp.complexes)
    (hfail : ∀ t ∈ linspace inp.maxThresh, ∀ lab ∈ uniqueLabels (inp.cut t),
      2 ≤ (clusterIdxs (inp.cut t) lab).length →
      jaccardQ (clusterGenesOf inp (clusterIdxs (inp.cut t) lab)) genes.toFinset
        < 1/2) :
    cid ∉ (runScan inp).2.map Prod.fst ∧
    (∀ j : Nat, j < inp.commonGenes.length →
      (∀ p ∈ (runScan inp).2, j ∉ p.2) →
      (get_first_level_clusters inp).getD j 0 =
        (buildGA inp.commonGenes.length (runScan inp).2).foldr max 0 + 1 +
          (inp.cut ((runScan inp).1 + 1/10)).getD j 0) := by
  constructor
  · intro hin
    rcases runScan_char inp hnd with ⟨h', hchar⟩
    have h2 : (runScan inp).2 = inp.complexes.filterMap (contribution inp) := by
      rw [hchar]
    rw [h2] at hin
    rcases List.mem_map.mp hin with ⟨pr, hpr, hfst⟩
    rcases List.mem_filterMap.mp hpr with ⟨c, hcmem, hcontr⟩
    have hc1 : c.1 = cid := by rw [← contribution_key inp c pr hcontr, hfst]
    have hcmem2 : (cid, c.2) ∈ inp.complexes := by rw [← hc1]; exact hcmem
    have hc2 : c.2 = genes :=
      nodup_keys_entry_unique inp.complexes cid c.2 genes hnd hcmem2 hmem
    unfold contribution at hcontr
    by_cases hp : presentCount inp c.2 < 2
    · rw [if_pos hp] at hcontr
      cases hcontr
    · rw [if_neg hp] at hcontr
      have hbm : bestMatch inp c.2.toFinset ≠ none := by
        intro hn
        rw [hn] at hcontr
        cases hcontr
      rw [hc2] at hbm
      rcases (bestMatch_ne_none_iff inp genes.toFinset).mp hbm with ⟨e, he, helig⟩
      rcases (mem_events inp e).mp he with ⟨ht, hlab⟩
      rcases (eligB_true_iff inp genes.toFinset e).mp helig with ⟨hlen, hhalf⟩
      exact absurd hhalf (not_le.mpr (hfail e.1 ht e.2 hlab hlen))
  · intro j hj hnotin
    have hga : (buildGA inp.commonGenes.length (runScan inp).2).getD j 0 = 0 := by
      by_contra hne
      rcases (buildGA_getD_nonzero_iff _ _ j hj).mp hne with ⟨p, hp, hjp⟩
      exact hnotin p hp hjp
    rw [get_first_level_clusters_getD inp j hj, if_neg (by rw [hga]; simp)]

/-- C3 witness: the amended statement instantiated at `inpC3` and its
gate-failing complex 20. -/
theorem c3_amended_gate_failure_witness :
    ((inpC3.complexes.map Prod.fst).Nodup ∧ (20, [0, 5]) ∈ inpC3.complexes ∧
      (∀ t ∈ linspace inpC3.maxThresh, ∀ lab ∈ uniqueLabels (inpC3.cut t),
        2 ≤ (clusterIdxs (inpC3.cut t) lab).length →
        jaccardQ (clusterGenesOf inpC3 (clusterIdxs (inpC3.cut t) lab))
          (([0, 5] : List Nat).toFinset) < 1/2)) ∧
    (20 ∉ (runScan inpC3).2.map Prod.fst ∧
    (∀ j : Nat, j < inpC3.commonGenes.length →
      (∀ p ∈ (runScan inpC3).2, j ∉ p.2) →
      (get_first_level_clusters inpC3).getD j 0 =
        (buildGA inpC3.commonGenes.length (runScan inpC3).2).foldr max 0 + 1 +
          (inpC3.cut ((runScan inpC3).1 + 1/10)).getD j 0)) :=
  ⟨⟨by decide, by decide, c3_gate_fails⟩,
    c3_amended_gate_failure inpC3 20 [0, 5] (by decide) (by decide) c3_gate_fails⟩

end Bionic

namespace Bionic

/-! ### Claim C7: the nested-grouping serializer -/

theorem mem_clusterIdxs (cluster : List Nat) (label i : Nat) :
    i ∈ clusterIdxs cluster label ↔ i < cluster.length ∧ cluster.getD i 0 = label := by
  unfold clusterIdxs
  rw [List.mem_filter, List.mem_range, beq_iff_eq]

theorem nodup_clusterIdxs (cluster : List Nat) (label : Nat) :
    (clusterIdxs cluster label).Nodup :=
  (List.nodup_range _).filter _

theorem leavesList_append (a b : List DataNode) :
    leavesList (a ++ b) = leavesList a ++ leavesList b := by
  induction a with
  | nil => rfl
  | cons nd a ih =>
    rw [List.cons_append]
    simp only [leavesList]
    rw [ih, List.append_assoc]

theorem leavesList_map_leaf (l : List Nat) (g : Nat → String) :
    leavesList (l.map (fun i => DataNode.leaf (g i) 1)) =
      l.map (fun i => (g i, 1)) := by
  induction l with
  | nil => rfl
  | cons i l ih =>
    rw [List.map_cons, List.map_cons]
    simp only [leavesList, leavesOf]
    rw [ih]
    rfl

theorem leaves_childrenFor (mg : List String) (cluster : List Nat)
    (rest : List (List Nat)) :
    ∀ labels : List Nat,
      leavesList (childrenFor mg cluster rest labels) =
        labels.flatMap (fun label =>
          leavesS (create_data_structure_recursive mg rest (clusterIdxs cluster label))) := by
  intro labels
  induction labels with
  | nil =>
    simp only [childrenFor, leavesList, List.flatMap_nil]
  | cons label more ih =>
    rw [List.flatMap_cons, ← ih]
    simp only [childrenFor]
    rw [leavesList_append]
    congr 1
    cases h : create_data_structure_recursive mg rest (clusterIdxs cluster label) with
    | inl leaves => rfl
    | inr nd =>
      show leavesList [nd] = leavesS (Sum.inr nd)
      simp only [leavesList, leavesS]
      rw [List.append_nil]

theorem flatMap_perm_congr {α β : Type} (l : List α) (f g : α → List β)
    (h : ∀ a ∈ l, (f a).Perm (g a)) : (l.flatMap f).Perm (l.flatMap g) := by
  induction l with
  | nil => exact List.Perm.refl _
  | cons a l ih =>
    rw [List.flatMap_cons, List.flatMap_cons]
    exact (h a (List.mem_cons_self a l)).append
      (ih (fun a' ha' => h a' (List.mem_cons_of_mem a ha')))

theorem nodup_flatMap_classes (cluster : List Nat) :
    ∀ labels : List Nat, labels.Nodup →
      (labels.flatMap (fun label => clusterIdxs cluster label)).Nodup := by
  intro labels
  induction labels with
  | nil => intro _; exact List.nodup_nil
  | cons label more ih =>
    intro hnd
    rw [List.nodup_cons] at hnd
    rw [List.flatMap_cons]
    refine (nodup_clusterIdxs cluster label).append (ih hnd.2) ?_
    intro i hi hi2
    rcases List.mem_flatMap.mp hi2 with ⟨label2, hl2, hil2⟩
    have h1 := ((mem_clusterIdxs cluster label i).mp hi).2
    have h2 := ((mem_clusterIdxs cluster label2 i).mp hil2).2
    apply hnd.1
    rw [h1.symm.trans h2]
    exact hl2

/-- The label classes of the labels present in a label-closed `subset`
partition `subset` (up to permutation). -/
theorem classes_partition (cluster : List Nat) (n : Nat) (hn : cluster.length = n)
    (subset : List Nat) (hnd : subset.Nodup) (hsub : ∀ i ∈ subset, i < n)
    (hclosed : ∀ i j, i < n → j < n → cluster.getD i 0 = cluster.getD j 0 →
      i ∈ subset → j ∈ subset) :
    ((uniqueLabels (subset.map (fun i => cluster.getD i 0))).flatMap
      (fun label => clusterIdxs cluster label)).Perm subset := by
  apply List.perm_of_nodup_nodup_toFinset_eq
    (nodup_flatMap_classes cluster _ (nodup_uniqueLabels _)) hnd
  apply Finset.ext
  intro i
  rw [List.mem_toFinset, List.mem_toFinset, List.mem_flatMap]
  constructor
  · rintro ⟨label, hlab, hmem⟩
    rcases (mem_clusterIdxs cluster label i).mp hmem with ⟨hi, hci⟩
    rcases List.mem_map.mp ((mem_uniqueLabels label _).mp hlab) with ⟨s, hs, hcs⟩
    exact hclosed s i (hsub s hs) (hn ▸ hi) (by rw [hcs, hci]) hs
  · intro hi
    refine ⟨cluster.getD i 0, ?_, ?_⟩
    · rw [mem_uniqueLabels]
      exact List.mem_map_of_mem _ hi
    · rw [mem_clusterIdxs]
      exact ⟨hn ▸ hsub i hi, rfl⟩

/-- Main induction for C7: on label-closed subsets of a refinement chain, the
serializer emits exactly one `(name, 1)` leaf per subset member. -/
theorem cdsr_leaves_perm (mg : List String) (n : Nat) :
    ∀ (levels : List (List Nat)) (subset : List Nat),
      (∀ l ∈ levels, l.length = n) →
      List.Chain' (Refines n) levels →
      subset.Nodup → (∀ i ∈ subset, i < n) →
      (∀ cluster, levels.head? = some cluster →
        ∀ i j, i < n → j < n → cluster.getD i 0 = cluster.getD j 0 →
          i ∈ subset → j ∈ subset) →
      (leavesS (create_data_structure_recursive mg levels subset)).Perm
        (subset.map (fun i => (mg.getD i "", 1))) := by
  intro levels
  induction levels with
  | nil =>
    intro subset _ _ _ _ _
    simp only [create_data_structure_recursive, leavesS]
    rw [leavesList_map_leaf]
  | cons cluster rest ih =>
    intro subset hlen hchain hnd hsub hclosed
    simp only [create_data_structure_recursive, leavesS, leavesOf]
    rw [leaves_childrenFor]
    have hn : cluster.length = n := hlen cluster (List.mem_cons_self cluster rest)
    have hcl : ∀ i j, i < n → j < n → cluster.getD i 0 = cluster.getD j 0 →
        i ∈ subset → j ∈ subset := hclosed cluster rfl
    have hrec : ∀ label ∈ uniqueLabels (subset.map (fun i => cluster.getD i 0)),
        (leavesS (create_data_structure_recursive mg rest
          (clusterIdxs cluster label))).Perm
          ((clusterIdxs cluster label).map (fun i => (mg.getD i "", 1))) := by
      intro label _
      apply ih (clusterIdxs cluster label)
        (fun l hl => hlen l (List.mem_cons_of_mem cluster hl)) hchain.tail
        (nodup_clusterIdxs cluster label)
      · intro i hi
        have := ((mem_clusterIdxs cluster label i).mp hi).1
        omega
      · intro cluster2 hc2 i j hi hj heq hisub
        cases rest with
        | nil => cases hc2
        | cons r rest2 =>
          have hc2r : cluster2 = r := (Option.some.inj hc2).symm
          subst hc2r
          have href : Refines n cluster cluster2 := (List.chain'_cons.mp hchain).1
          rcases (mem_clusterIdxs cluster label i).mp hisub with ⟨hilt, hieq⟩
          rw [mem_clusterIdxs]
          refine ⟨by omega, ?_⟩
          rw [← hieq]
          exact (href i j hi hj heq).symm
    refine List.Perm.trans (flatMap_perm_congr _ _ _ hrec) ?_
    rw [← List.map_flatMap]
    exact (classes_partition cluster n hn subset hnd hsub hcl).map _

end Bionic

namespace Bionic

/-- C7 counterexample: on the two-item level list `[[1, 1], [1, 2]]` (so the
coarse level processed first after reversal is `[1, 2]` and the finer one is
`[1, 1]`, which does not refine it), the serializer duplicates items: because
`new_subset` is recomputed over the *full* level array, item "a" appears as two
leaves of the resulting tree (and the leaf multiset is not one leaf per input
item), refuting the claim that each input item appears as exactly one leaf. -/
theorem c7_value :
    create_data_structure ["a", "b"] [[1, 1], [1, 2]] =
      Sum.inr (DataNode.node ""
        [DataNode.node "" [DataNode.leaf "a" 1, DataNode.leaf "b" 1],
         DataNode.node "" [DataNode.leaf "a" 1, DataNode.leaf "b" 1]]) := by
  have ebase : ∀ sub : List Nat,
      create_data_structure_recursive ["a", "b"] [] sub =
        Sum.inl (sub.map (fun i => DataNode.leaf ((["a", "b"] : List String).getD i "") 1)) := by
    intro sub
    simp only [create_data_structure_recursive]
  have echildNil : ∀ (c : List Nat) (r : List (List Nat)),
      childrenFor ["a", "b"] c r [] = [] := by
    intro c r
    simp only [childrenFor]
  have echildCons : ∀ (c : List Nat) (r : List (List Nat)) (lab : Nat) (more : List Nat),
      childrenFor ["a", "b"] c r (lab :: more) =
      (match create_data_structure_recursive ["a", "b"] r (clusterIdxs c lab) with
       | Sum.inl leaves => leaves
       | Sum.inr nd => [nd]) ++ childrenFor ["a", "b"] c r more := by
    intro c r lab more
    simp only [childrenFor]
  have einner : ∀ sub : List Nat,
      create_data_structure_recursive ["a", "b"] [[1, 1]] sub =
        Sum.inr (DataNode.node "" (childrenFor ["a", "b"] [1, 1] []
          (uniqueLabels (sub.map (fun i => ([1, 1] : List Nat).getD i 0))))) := by
    intro sub
    simp only [create_data_structure_recursive]
  have hinner0 : create_data_structure_recursive ["a", "b"] [[1, 1]] [0] =
      Sum.inr (DataNode.node "" [DataNode.leaf "a" 1, DataNode.leaf "b" 1]) := by
    rw [einner [0],
      show uniqueLabels (([0] : List Nat).map (fun i => ([1, 1] : List Nat).getD i 0)) =
        [1] from rfl, echildCons, echildNil,
      show clusterIdxs [1, 1] 1 = [0, 1] from rfl, ebase [0, 1]]
    rfl
  have hinner1 : create_data_structure_recursive ["a", "b"] [[1, 1]] [1] =
      Sum.inr (DataNode.node "" [DataNode.leaf "a" 1, DataNode.leaf "b" 1]) := by
    rw [einner [1],
      show uniqueLabels (([1] : List Nat).map (fun i => ([1, 1] : List Nat).getD i 0)) =
        [1] from rfl, echildCons, echildNil,
      show clusterIdxs [1, 1] 1 = [0, 1] from rfl, ebase [0, 1]]
    rfl
  have eouter : create_data_structure_recursive ["a", "b"] [[1, 2], [1, 1]] [0, 1] =
      Sum.inr (DataNode.node "" (childrenFor ["a", "b"] [1, 2] [[1, 1]]
        (uniqueLabels (([0, 1] : List Nat).map
          (fun i => ([1, 2] : List Nat).getD i 0))))) := by
    simp only [create_data_structure_recursive]
  show create_data_structure_recursive ["a", "b"] [[1, 2], [1, 1]] [0, 1] = _
  rw [eouter,
    show uniqueLabels (([0, 1] : List Nat).map (fun i => ([1, 2] : List Nat).getD i 0)) =
      [1, 2] from rfl, echildCons, echildCons, echildNil,
    show clusterIdxs [1, 2] 1 = [0] from rfl, show clusterIdxs [1, 2] 2 = [1] from rfl,
    hinner0, hinner1]
  rfl

theorem c7_leaves_value :
    leavesS (create_data_structure ["a", "b"] [[1, 1], [1, 2]]) =
      [("a", 1), ("b", 1), ("a", 1), ("b", 1)] := by
  rw [c7_value]
  simp [leavesS, leavesOf, leavesList]

/-- C7 counterexample: on the level list `[[1, 1], [1, 2]]` over items "a" and
"b" (the coarse level processed first after reversal is `[1, 2]`, and the finer
level `[1, 1]` does not refine it), the serializer duplicates items: because
`new_subset` is recomputed over the *full* level array, item "a" appears as two
leaves of the resulting tree, and the leaf list is not one `(name, 1)` leaf per
input item — refuting the claim that each input item appears as exactly one
leaf. -/
theorem c7_counterexample :
    (leavesS (create_data_structure ["a", "b"] [[1, 1], [1, 2]])).count ("a", 1) = 2 ∧
    ¬ (leavesS (create_data_structure ["a", "b"] [[1, 1], [1, 2]])).Perm
        ((["a", "b"] : List String).map (fun s => (s, 1))) := by
  rw [c7_leaves_value]
  constructor
  · rfl
  · intro hperm
    have := hperm.length_eq
    simp at this

/-- C7 (amended): `create_data_structure` reverses the level list and
recursively groups items by shared label, coarsest level first; provided every
level has the common item count `n`, the name list has length `n`, and each
level of the reversed list is refined by its successor (finer levels refine
coarser ones), the result is an internal node aggregating its children and its
leaves are exactly one `(display name, 1)` leaf per input item. -/
theorem c7_amended_serializer (mg : List String) (clusters : List (List Nat)) (n : Nat)
    (hne : clusters ≠ [])
    (hlen : ∀ l ∈ clusters, l.length = n)
    (hmg : mg.length = n)
    (hchain : List.Chain' (Refines n) clusters.reverse) :
    (∃ children, create_data_structure mg clusters =
      Sum.inr (DataNode.node "" children)) ∧
    (leavesS (create_data_structure mg clusters)).Perm (mg.map (fun s => (s, 1))) := by
  have hrevne : clusters.reverse ≠ [] := by
    intro h
    exact hne (by rw [← List.reverse_reverse clusters, h, List.reverse_nil])
  rcases List.exists_cons_of_ne_nil hrevne with ⟨c0, rest, hrev⟩
  have hc0len : c0.length = n := by
    apply hlen
    rw [← List.mem_reverse, hrev]
    exact List.mem_cons_self c0 rest
  have hsubeq : (List.range (clusters.reverse.getD 0 []).length) = List.range n := by
    rw [hrev]
    show List.range c0.length = List.range n
    rw [hc0len]
  constructor
  · unfold create_data_structure
    rw [hrev]
    simp only [create_data_structure_recursive]
    exact ⟨_, rfl⟩
  · unfold create_data_structure
    rw [hsubeq]
    have hperm := cdsr_leaves_perm mg n clusters.reverse (List.range n)
      (fun l hl => hlen l (List.mem_reverse.mp hl)) hchain (List.nodup_range n)
      (fun i hi => List.mem_range.mp hi)
      (fun cluster _ i j _ hj _ _ => List.mem_range.mpr hj)
    refine hperm.trans (List.Perm.of_eq ?_)
    apply List.ext_getElem
    · rw [List.length_map, List.length_range, List.length_map, hmg]
    · intro k h1 h2
      rw [List.getElem_map, List.getElem_map, List.getElem_range]
      have hk : k < mg.length := by
        rw [List.length_map, List.length_range] at h1
        omega
      rw [List.getD_eq_getElem mg "" hk]

/-- C7 witness: the amended statement at names `["a", "b"]` and the refining
level list `[[1, 2], [1, 1]]` (finest first; the reversed processing order is
coarse `[1, 1]` then `[1, 2]`, which refines it). -/
theorem c7_amended_serializer_witness :
    ((([[1, 2], [1, 1]] : List (List Nat)) ≠ []) ∧
      (∀ l ∈ ([[1, 2], [1, 1]] : List (List Nat)), l.length = 2) ∧
      (["a", "b"] : List String).length = 2 ∧
      List.Chain' (Refines 2) ([[1, 2], [1, 1]] : List (List Nat)).reverse) ∧
    ((∃ children, create_data_structure ["a", "b"] [[1, 2], [1, 1]] =
      Sum.inr (DataNode.node "" children)) ∧
    (leavesS (create_data_structure ["a", "b"] [[1, 2], [1, 1]])).Perm
      ((["a", "b"] : List String).map (fun s => (s, 1)))) := by
  have hchain : List.Chain' (Refines 2) ([[1, 2], [1, 1]] : List (List Nat)).reverse := by
    show List.Chain' (Refines 2) [[1, 1], [1, 2]]
    rw [List.chain'_cons]
    refine ⟨?_, List.chain'_singleton _⟩
    intro i j hi hj _
    have h1 : ∀ k, k < 2 → ([1, 1] : List Nat).getD k 0 = 1 := by
      intro k hk
      interval_cases k
      · rfl
      · rfl
    rw [h1 i hi, h1 j hj]
  exact ⟨⟨by decide, by decide, by decide, hchain⟩,
    c7_amended_serializer ["a", "b"] [[1, 2], [1, 1]] 2 (by decide) (by decide)
      (by decide) hchain⟩

end Bionic
